import Mathlib

/-!
# Verification of the torrentium BitTorrent client core

Shallow embedding of the torrentium source (bencode codec, metainfo
extractor, tracker peer decoding, bitfield, peer wire framing, handshake,
and the shared download state) together with proofs and refutations of the
specification claims.

Bytes are modelled as `Nat` (the source uses `u8`; all byte values that
appear are below 256 and no byte arithmetic overflows).  Machine integers
are modelled as `Nat`/`Int` with explicit `% 2^64` where Rust `u64`
wrapping matters.
-/

namespace Torrentium

/-! ## Bencode values (src/metadata/bencode.rs, `BencodeValue`)

A dictionary (`BTreeMap<Vec<u8>, BencodeValue>`) is modelled as an
association list in ascending key order: the decoder only ever inserts a
key strictly greater than every present key, so insertion is appending,
and iteration order is insertion order. -/

inductive BencodeValue : Type where
  | int (i : Int)
  | str (s : List Nat)
  | list (xs : List BencodeValue)
  | dict (xs : List (List Nat × BencodeValue))
  deriving Repr

/-- `BencodeError` from src/metadata/bencode.rs.  The two dictionary-key
errors carry a rendered string in the source; the key bytes are carried
instead (the payload is only used for display). -/
inductive BencodeError : Type where
  | unconsumedContents (num_remaining : Nat)
  | insufficientContents
  | unknownType (pos : Nat) (value : Nat)
  | integerWithLeadingZeros (pos : Nat)
  | emptyInteger (pos : Nat)
  | illegalInteger (pos : Nat)
  | unterminatedValue (pos : Nat)
  | illegalStringLength (pos : Nat)
  | stringMissingSeparator (pos : Nat)
  | illegalDictionaryKeyType (value : List Nat)
  | duplicateDictionaryKey (name : List Nat)
  | dictionaryKeysOutOfOrder
  deriving Repr, DecidableEq

/-- Rust `i64::MAX`. -/
def I64_MAX : Nat := 2 ^ 63 - 1

/-- `u8::is_ascii_digit`. -/
def isDigitB (b : Nat) : Bool := 48 ≤ b && b ≤ 57

/-- Length of the maximal run of ASCII digits at the head of the list
(the number of loop iterations of `parse_integer_value` before a
non-digit byte is reached). -/
def digitRun : List Nat → Nat
  | [] => 0
  | b :: rest => if isDigitB b then digitRun rest + 1 else 0

/-- Numeric value of a string of ASCII digits (what
`str::parse::<i64>` computes on a digit-only string, before the
overflow check). -/
def digitsVal (l : List Nat) : Nat := l.foldl (fun a d => 10 * a + (d - 48)) 0

/-- `BencodeParser::parse_integer_value`.  The parser state
`{contents, pos, length}` is threaded explicitly: each function takes
`(c, pos)` and returns the value together with the new position.  The
loop scans digits, erroring with `InsufficientContents` when the input
ends mid-scan; then the slice is checked for emptiness and leading
zeros, and parsed as `i64` (digit-only, hence non-negative; overflow of
`i64::MAX` yields `IllegalInteger`; the `from_utf8` failure arm is
unreachable for digit bytes). -/
def parse_integer_value (c : List Nat) (pos : Nat) (leading_zeros_allowed : Bool) :
    Except BencodeError (Nat × Nat) :=
  let k := digitRun (c.drop pos)
  if c.length ≤ pos + k then .error .insufficientContents
  else
    let slice := (c.drop pos).take k
    if k = 0 then .error (.emptyInteger pos)
    else if leading_zeros_allowed = false ∧ slice.headD 0 = 48 ∧ 1 < k then
      .error (.integerWithLeadingZeros pos)
    else if digitsVal slice ≤ I64_MAX then .ok (digitsVal slice, pos + k)
    else .error (.illegalInteger pos)

/-- `BencodeParser::ensure_available` at position `pos`. -/
def ensure_available (c : List Nat) (pos : Nat) : Except BencodeError Unit :=
  if c.length ≤ pos then .error .insufficientContents else .ok ()

/-- `BencodeParser::expect_end`. -/
def expect_end (c : List Nat) (pos : Nat) : Except BencodeError Unit :=
  if c.length ≤ pos then .error .insufficientContents
  else if c.getD pos 0 = 101 then .ok ()
  else .error (.unterminatedValue pos)

/-- `BencodeParser::parse_integer` (entered with `c[pos] = 'i'`).
The sign is consumed first, the magnitude parsed by
`parse_integer_value`, `-0` rejected, and the trailing `e` consumed. -/
def parse_integer (c : List Nat) (pos : Nat) :
    Except BencodeError (BencodeValue × Nat) :=
  let pos1 := pos + 1
  match ensure_available c pos1 with
  | .error e => .error e
  | .ok _ =>
    let neg := c.getD pos1 0 = 45
    let pos2 := if neg then pos1 + 1 else pos1
    match parse_integer_value c pos2 false with
    | .error e => .error e
    | .ok (v, pos3) =>
      if v = 0 ∧ neg then .error (.illegalInteger pos3)
      else match expect_end c pos3 with
        | .error e => .error e
        | .ok _ => .ok (.int (if neg then -(v : Int) else (v : Int)), pos3 + 1)

/-- `BencodeParser::parse_string`, returning the raw bytes.  The length
literal is parsed with leading zeros allowed; the `length < 0` check of
the source can never fire (the literal is digit-only) and is omitted;
then the `:` separator and `length` bytes are consumed, the per-byte
`ensure_available` of the copy loop failing exactly when
`pos + 1 + length` exceeds the input length. -/
def parse_string_raw (c : List Nat) (pos : Nat) :
    Except BencodeError (List Nat × Nat) :=
  match parse_integer_value c pos true with
  | .error e => .error e
  | .ok (len, pos1) =>
    if c.length ≤ pos1 then .error .insufficientContents
    else if c.getD pos1 0 ≠ 58 then .error (.stringMissingSeparator pos1)
    else if c.length < pos1 + 1 + len then .error .insufficientContents
    else .ok ((c.drop (pos1 + 1)).take len, pos1 + 1 + len)

/-- Lexicographic comparison of byte strings (`Vec<u8>::cmp`). -/
def byteCmp : List Nat → List Nat → Ordering
  | [], [] => .eq
  | [], _ :: _ => .lt
  | _ :: _, [] => .gt
  | a :: as_, b :: bs =>
    if a < b then .lt
    else if b < a then .gt
    else byteCmp as_ bs

mutual

/-- `BencodeParser::parse_value`: dispatch on the first byte.  The
recursion through lists and dictionaries is fueled; `deserialize`
supplies fuel `c.length + 1`, which is shown sufficient for every input
actually parsed in this development (fuel exhaustion is reported as
`InsufficientContents` and is never reached on those inputs). -/
def parse_value : Nat → List Nat → Nat → Except BencodeError (BencodeValue × Nat)
  | 0, _, _ => .error .insufficientContents
  | fuel + 1, c, pos =>
    if c.length ≤ pos then .error .insufficientContents
    else
      let first := c.getD pos 0
      if first = 105 then parse_integer c pos
      else if first = 108 then
        match parse_list fuel c (pos + 1) with
        | .error e => .error e
        | .ok (xs, pos2) => .ok (.list xs, pos2)
      else if first = 100 then
        match parse_dict fuel c (pos + 1) [] with
        | .error e => .error e
        | .ok (xs, pos2) => .ok (.dict xs, pos2)
      else if isDigitB first then
        match parse_string_raw c pos with
        | .error e => .error e
        | .ok (s, pos2) => .ok (.str s, pos2)
      else .error (.unknownType pos first)

/-- The element loop of `BencodeParser::parse_list` (entered just past
the opening `l`). -/
def parse_list : Nat → List Nat → Nat → Except BencodeError (List BencodeValue × Nat)
  | 0, _, _ => .error .insufficientContents
  | fuel + 1, c, pos =>
    if c.length ≤ pos then .error .insufficientContents
    else if c.getD pos 0 = 101 then .ok ([], pos + 1)
    else
      match parse_value fuel c pos with
      | .error e => .error e
      | .ok (v, pos2) =>
        match parse_list fuel c pos2 with
        | .error e => .error e
        | .ok (vs, pos3) => .ok (v :: vs, pos3)

/-- The pair loop of `BencodeParser::parse_dictionary` (entered just
past the opening `d`), carrying the accumulated map.  Keys are parsed
with `parse_string` (so a non-string key surfaces as that function's
error and the `IllegalDictionaryKeyType` arm of the source is
unreachable); the new key is compared against the greatest present key
(`BTreeMap::last_key_value`, i.e. the last accumulated pair), and
insertion appends. -/
def parse_dict : Nat → List Nat → Nat → List (List Nat × BencodeValue) →
    Except BencodeError (List (List Nat × BencodeValue) × Nat)
  | 0, _, _, _ => .error .insufficientContents
  | fuel + 1, c, pos, acc =>
    if c.length ≤ pos then .error .insufficientContents
    else if c.getD pos 0 = 101 then .ok (acc, pos + 1)
    else
      match parse_string_raw c pos with
      | .error e => .error e
      | .ok (key, pos2) =>
        let ordOk : Except BencodeError Unit :=
          match acc.getLast? with
          | none => .ok ()
          | some (k0, _) =>
            match byteCmp key k0 with
            | .lt => .error .dictionaryKeysOutOfOrder
            | .eq => .error (.duplicateDictionaryKey key)
            | .gt => .ok ()
        match ordOk with
        | .error e => .error e
        | .ok _ =>
          match parse_value fuel c pos2 with
          | .error e => .error e
          | .ok (v, pos3) => parse_dict fuel c pos3 (acc ++ [(key, v)])

end

/-- `BencodeParser::deserialize` (= `BencodeValue::try_from(&[u8])`):
parse one value and require that the whole input was consumed. -/
def deserialize (c : List Nat) : Except BencodeError BencodeValue :=
  match parse_value (c.length + 1) c 0 with
  | .error e => .error e
  | .ok (v, pos) =>
    if pos = c.length then .ok v
    else .error (.unconsumedContents (c.length - pos))

/-- ASCII decimal digits of a natural number, most significant first,
accumulated onto `acc`; structural recursion on a fuel bounded below
by the digit count (`n` itself suffices). -/
def natDecimalGo : Nat → Nat → List Nat → List Nat
  | 0, _, acc => acc
  | fuel + 1, n, acc =>
    if n = 0 then acc else natDecimalGo fuel (n / 10) ((48 + n % 10) :: acc)

/-- ASCII decimal rendering of a natural number (`format!("{n}")`). -/
def natDecimal (n : Nat) : List Nat :=
  if n = 0 then [48] else natDecimalGo n n []

/-- ASCII decimal rendering of an `i64` (`format!("{i}")`). -/
def intDecimal (i : Int) : List Nat :=
  (if i < 0 then [45] else []) ++ natDecimal i.natAbs

mutual

/-- `impl From<&BencodeValue> for Vec<u8>`: the canonical encoder. -/
def encode : BencodeValue → List Nat
  | .int i => 105 :: (intDecimal i ++ [101])
  | .str s => natDecimal s.length ++ 58 :: s
  | .list xs => 108 :: (encodeList xs ++ [101])
  | .dict xs => 100 :: (encodeDict xs ++ [101])

/-- Encoder loop over list elements. -/
def encodeList : List BencodeValue → List Nat
  | [] => []
  | v :: vs => encode v ++ encodeList vs

/-- Encoder loop over dictionary pairs (`<len>:<key>` then the value). -/
def encodeDict : List (List Nat × BencodeValue) → List Nat
  | [] => []
  | (k, v) :: rest => natDecimal k.length ++ 58 :: k ++ encode v ++ encodeDict rest

end

/-- The invariant of `BencodeValue` as built by the Rust code: integers
fit the `i64` range with a decodable magnitude (`i64::MIN` itself
encodes to a literal the decoder rejects, see the integer claims),
byte-string and dictionary-key lengths fit `i64`, and dictionary keys
are strictly ascending, as `BTreeMap` iteration guarantees. -/
inductive Valid : BencodeValue → Prop where
  | int {i : Int} : -(2 ^ 63) < i → i < 2 ^ 63 → Valid (.int i)
  | str {s : List Nat} : s.length ≤ I64_MAX → Valid (.str s)
  | list {xs : List BencodeValue} : (∀ v ∈ xs, Valid v) → Valid (.list xs)
  | dict {xs : List (List Nat × BencodeValue)} :
      (∀ p ∈ xs, p.1.length ≤ I64_MAX) →
      (∀ p ∈ xs, Valid p.2) →
      List.Chain' (fun a b => byteCmp a b = .lt) (xs.map Prod.fst) →
      Valid (.dict xs)

mutual

/-- Fuel measure for the parser: the fuel a `parse_value` call needs
for the canonical encoding of `v`.  Each parser call decrements fuel
by one and dispatches to one sub-parse, hence the `max` over the
element and the remaining loop. -/
def bsize : BencodeValue → Nat
  | .int _ => 1
  | .str _ => 1
  | .list xs => 1 + bsizeList xs
  | .dict xs => 1 + bsizeDict xs

/-- Fuel needed by the `parse_list` loop. -/
def bsizeList : List BencodeValue → Nat
  | [] => 1
  | v :: vs => 1 + max (bsize v) (bsizeList vs)

/-- Fuel needed by the `parse_dict` loop. -/
def bsizeDict : List (List Nat × BencodeValue) → Nat
  | [] => 1
  | (_, v) :: ps => 1 + max (bsize v) (bsizeDict ps)

end

/-! ## Bitfield (src/peer.rs)

Byte masks are `Nat` values below 256; bit operations use `Nat`
bitwise arithmetic, which agrees with `u8` arithmetic on these values. -/

inductive BitfieldError : Type where
  | unrepresentible (num_fields : Nat) (num_elements : Nat)
  | pieceOutOfRange (index : Nat) (len : Nat)
  deriving Repr, DecidableEq

structure Bitfield : Type where
  masks : List Nat
  num : Nat
  last_mask : Nat
  deriving Repr, DecidableEq

/-- `Bitfield::new`: `num.div_ceil(8)` mask bytes, all `0xFF` or all
zero, and `last_mask` unconditionally `0xFF`. -/
def Bitfield.new (num : Nat) (set : Bool) : Bitfield :=
  let num_elements := (num + 7) / 8
  { masks := List.replicate num_elements (if set then 255 else 0),
    num := num, last_mask := 255 }

/-- `Bitfield::try_from_vec`: length check, then
`extra = num_elements % 8` (as written in the source) determines
`last_mask`, and when `extra != 0` the final byte is masked. -/
def Bitfield.try_from_vec (v : List Nat) (num : Nat) : Except BitfieldError Bitfield :=
  let num_elements := (num + 7) / 8
  if v.length < num_elements then
    .error (.unrepresentible num v.length)
  else
    let extra := num_elements % 8
    let lm := if extra ≠ 0 then ((1 <<< extra) - 1) <<< (8 - extra) else 255
    let masks := if extra ≠ 0 then v.set (v.length - 1) (v.getD (v.length - 1) 0 &&& lm) else v
    .ok { masks := masks, num := num, last_mask := lm }

/-- `Bitfield::has_piece`.  In-source indexing `masks[element_index]`
is always in bounds after the `index_check` for bitfields built by
`new`/`try_from_vec`; it is modelled with `getD`. -/
def Bitfield.has_piece (bf : Bitfield) (index : Nat) : Except BitfieldError Bool :=
  if bf.num ≤ index then .error (.pieceOutOfRange index bf.num)
  else
    let mask := 1 <<< (7 - index % 8)
    .ok (bf.masks.getD (index / 8) 0 &&& mask = mask)

/-- `Bitfield::mark_piece`, returning the updated bitfield. -/
def Bitfield.mark_piece (bf : Bitfield) (index : Nat) : Except BitfieldError Bitfield :=
  if bf.num ≤ index then .error (.pieceOutOfRange index bf.num)
  else
    let ei := index / 8
    let mask := 1 <<< (7 - index % 8)
    .ok { bf with masks := bf.masks.set ei (bf.masks.getD ei 0 ||| mask) }

/-- `Bitfield::all`: the final byte must equal `last_mask` and all
preceding bytes must be `0xFF`.  (For an empty mask vector the source
indexing panics; the model returns `false`; every use in this
development has at least one mask byte.) -/
def Bitfield.all (bf : Bitfield) : Bool :=
  let n := bf.masks.length - 1
  (bf.masks.getD n 0 = bf.last_mask) && (bf.masks.take n).all (fun e => e = 255)

/-- Mark every piece index in `0..n` in order (the claim's scenario of
a download completing every piece); out-of-range marks leave the
bitfield unchanged, as in the source where the `Result` is dropped. -/
def markAll (bf : Bitfield) (n : Nat) : Bitfield :=
  (List.range n).foldl (fun b i => match b.mark_piece i with
    | .ok b2 => b2
    | .error _ => b) bf

/-! ## Peer wire messages (src/peer/message.rs) -/

inductive MessageError : Type where
  | unknownMessage
  | byteConversionError
  | unexpectedNumBytes (expected : Nat) (received : Nat)
  deriving Repr, DecidableEq

/-- The `Message::Piece` payload fields. -/
structure PieceMessage : Type where
  index : Nat
  begin_ : Nat
  bytes : List Nat
  deriving Repr, DecidableEq

/-- `<[u8; 4]>::try_from` on a byte slice followed by
`u32::from_be_bytes`: succeeds exactly when the slice has length 4. -/
def sliceToU32 (l : List Nat) : Option Nat :=
  match l with
  | [a, b, c, d] => some (((a * 256 + b) * 256 + c) * 256 + d)
  | _ => none

/-- `Message::read_piece` as a function of the received payload bytes
(the network read either delivers `payload_length` bytes or fails with
an I/O error upstream).  The index is big-endian bytes `0..4`; the
`begin` field is taken from the slice `bytes[5..8]` — three bytes — as
written in the source. -/
def read_piece (payload : List Nat) : Except MessageError PieceMessage :=
  if payload.length < 8 then
    .error (.unexpectedNumBytes 8 payload.length)
  else
    match sliceToU32 (payload.take 4) with
    | none => .error .byteConversionError
    | some index =>
      match sliceToU32 ((payload.drop 5).take 3) with
      | none => .error .byteConversionError
      | some b =>
        .ok { index := index, begin_ := b, bytes := payload.drop 8 }

/-! ## Handshake (src/peer/handshake.rs) -/

/-- `b"BitTorrent protocol"`. -/
def P_STR : List Nat :=
  [66, 105, 116, 84, 111, 114, 114, 101, 110, 116, 32, 112, 114, 111, 116, 111, 99, 111, 108]

inductive HandshakeError : Type where
  | notConnected
  | invalidHandshakeLength (len : Nat)
  | invalidProtocolIdLength (b : Nat)
  | invalidProtocolId (p : List Nat)
  | byteConversionError
  | insufficientDataReceived (n : Nat)
  | mismatchedFlags (mine theirs : List Nat)
  | mismatchedHash (mine theirs : List Nat)
  | mismatchedPeerId (mine theirs : List Nat)
  deriving Repr, DecidableEq

structure TorrentHandshake : Type where
  flags : List Nat
  info_hash : List Nat
  peer_id : List Nat
  deriving Repr, DecidableEq

/-- `<[u8; n]>::try_from` on a byte slice: succeeds exactly when the
slice length is `n`. -/
def sliceToArray (l : List Nat) (n : Nat) : Option (List Nat) :=
  if l.length = n then some l else none

/-- `impl TryFrom<&[u8]> for TorrentHandshake`.  The peer-id field is
taken from `bytes[48..60]` — twelve bytes — as written in the source. -/
def torrentHandshake_try_from (bytes : List Nat) :
    Except HandshakeError TorrentHandshake :=
  if bytes.length ≠ 68 then .error (.invalidHandshakeLength bytes.length)
  else if bytes.getD 0 0 ≠ 19 then .error (.invalidProtocolIdLength (bytes.getD 0 0))
  else if (bytes.drop 1).take 19 ≠ P_STR then .error (.invalidProtocolId ((bytes.drop 1).take 19))
  else
    match sliceToArray ((bytes.drop 20).take 8) 8 with
    | none => .error .byteConversionError
    | some flags =>
      match sliceToArray ((bytes.drop 28).take 20) 20 with
      | none => .error .byteConversionError
      | some info_hash =>
        match sliceToArray ((bytes.drop 48).take 12) 20 with
        | none => .error .byteConversionError
        | some peer_id => .ok { flags := flags, info_hash := info_hash, peer_id := peer_id }

/-- `PEER_ID = b"!MySuperCoolTorrent!"`. -/
def PEER_ID : List Nat :=
  [33, 77, 121, 83, 117, 112, 101, 114, 67, 111, 111, 108, 84, 111, 114, 114, 101, 110, 116, 33]

/-- `TorrentHandshake::new`: zero flags, our hash, our peer id. -/
def torrentHandshake_new (info_hash : List Nat) : TorrentHandshake :=
  { flags := List.replicate 8 0, info_hash := info_hash, peer_id := PEER_ID }

/-- The comparison chain of `Downloader::handshake` after the received
bytes have been decoded: flags, then info-hash, then peer id are each
compared against our own handshake. -/
def handshake_check (mine theirs : TorrentHandshake) : Except HandshakeError Unit :=
  if mine.flags ≠ theirs.flags then .error (.mismatchedFlags mine.flags theirs.flags)
  else if mine.info_hash ≠ theirs.info_hash then
    .error (.mismatchedHash mine.info_hash theirs.info_hash)
  else if mine.peer_id ≠ theirs.peer_id then
    .error (.mismatchedPeerId mine.peer_id theirs.peer_id)
  else .ok ()

/-- The pure part of `Downloader::handshake` on received bytes `buf`
after a successful `read_exact` of 68 bytes: the source then tests
`num_read < buf.len()` — which is false, since `read_exact` returns
the filled length 68 — and so returns `InsufficientDataReceived(68)`
without ever decoding; the decode-and-compare path is modelled by
`torrentHandshake_try_from` and `handshake_check` above. -/
def handshake_receive (info_hash buf : List Nat) : Except HandshakeError Unit :=
  let num_read := buf.length
  if num_read < 68 then
    match torrentHandshake_try_from buf with
    | .error e => .error e
    | .ok theirs => handshake_check (torrentHandshake_new info_hash) theirs
  else .error (.insufficientDataReceived num_read)

/-! ## Compact peer decoding (src/metadata/tracker.rs) -/

inductive TrackerError : Type where
  | illegalPeersLength (n : Nat)
  | missingPeers
  | malformedPeersList
  deriving Repr, DecidableEq

/-- A peer address: four IPv4 octets and a port. -/
structure Peer : Type where
  a : Nat
  b : Nat
  c : Nat
  d : Nat
  port : Nat
  deriving Repr, DecidableEq

/-- `extract_peers`: a byte string whose length is a multiple of 6
decodes into records of 4 IPv4 octets and a big-endian 16-bit port. -/
def extract_peers (value : Option BencodeValue) : Except TrackerError (List Peer) :=
  match value with
  | none => .error .missingPeers
  | some (.str bytes) =>
    if bytes.length % 6 ≠ 0 then .error (.illegalPeersLength bytes.length)
    else .ok ((List.range (bytes.length / 6)).map (fun i =>
      { a := bytes.getD (6 * i) 0, b := bytes.getD (6 * i + 1) 0,
        c := bytes.getD (6 * i + 2) 0, d := bytes.getD (6 * i + 3) 0,
        port := 256 * bytes.getD (6 * i + 4) 0 + bytes.getD (6 * i + 5) 0 }))
  | some _ => .error .malformedPeersList

/-! ## Metainfo extraction (src/metadata/file.rs)

`TorrentFile::extract` and its helpers.  Strings are kept as their
byte lists.  Three externals of the crate are passed as parameters:
`utf8ok` models the `std::str::from_utf8` validity test used by
`convert_string`, `urlOk` models `url::Url::parse` success on the
announce string, and `sha1` models `util::sha1::sha1_hash`.  Every
claim about `extract` is proved for all instantiations of these
parameters.  Rust `u64` arithmetic in the final length check wraps
(release semantics), modelled with explicit `% 2^64`. -/

def U64 : Nat := 2 ^ 64

inductive TorrentFileError : Type where
  | fileIsNotDictionary
  | keyDoesNotMapToString (name : String)
  | missingRequiredKey (name : String)
  | keyDoesNotMapToInteger (name : String)
  | negativeInteger (i : Int)
  | keyDoesNotMapToDictionary (name : String)
  | keyDoesNotMapToList (name : String)
  | invalidMd5Length (len : Nat)
  | invalidPrivateValue (v : Nat)
  | keyDoesNotMapToListOfStrings (name : String)
  | keyMapsToAnEmptyList (name : String)
  | invalidNumberOfPieces (len : Nat)
  | invalidAnnounceListElement
  | invalidString (bytes : List Nat)
  | invalidAnnounceUrl (url : List Nat)
  | lengthMismatch (total : Nat) (upper : Nat)
  deriving Repr, DecidableEq

structure MultiFileInfo : Type where
  length : Nat
  md5sum : Option (List Nat)
  path : List (List Nat)
  deriving Repr, DecidableEq

inductive FileModeInfo : Type where
  | single (filename : List Nat) (length : Nat) (md5sum : Option (List Nat))
  | multiple (directory : List Nat) (files : List MultiFileInfo)
  deriving Repr, DecidableEq

structure TorrentFile : Type where
  announce : List Nat
  announce_list : List (List (List Nat))
  creation_date : Option Nat
  comment : Option (List Nat)
  created_by : Option (List Nat)
  encoding : Option (List Nat)
  private_ : Bool
  info : FileModeInfo
  total_num_bytes : Nat
  num_bytes_per_piece : Nat
  num_pieces : Nat
  piece_hashes : List (List Nat)
  hash : List Nat
  filename : List Nat
  deriving Repr, DecidableEq

/-- `BTreeMap::get` on the association-list model of a dictionary. -/
def dictGet (items : List (List Nat × BencodeValue)) (k : List Nat) : Option BencodeValue :=
  (items.find? (fun p => p.1 = k)).map (fun p => p.2)

def ANNOUNCE : List Nat := [97, 110, 110, 111, 117, 110, 99, 101]
def ANNOUNCE_LIST : List Nat := ANNOUNCE ++ [45, 108, 105, 115, 116]
def CREATION_DATE : List Nat := [99, 114, 101, 97, 116, 105, 111, 110, 32, 100, 97, 116, 101]
def COMMENT : List Nat := [99, 111, 109, 109, 101, 110, 116]
def CREATED_BY : List Nat := [99, 114, 101, 97, 116, 101, 100, 32, 98, 121]
def ENCODING : List Nat := [101, 110, 99, 111, 100, 105, 110, 103]
def INFO : List Nat := [105, 110, 102, 111]
def PIECE_LENGTH : List Nat := [112, 105, 101, 99, 101, 32, 108, 101, 110, 103, 116, 104]
def PIECES : List Nat := [112, 105, 101, 99, 101, 115]
def PRIVATE : List Nat := [112, 114, 105, 118, 97, 116, 101]
def NAME : List Nat := [110, 97, 109, 101]
def LENGTH : List Nat := [108, 101, 110, 103, 116, 104]
def MD5SUM : List Nat := [109, 100, 53, 115, 117, 109]
def FILES : List Nat := [102, 105, 108, 101, 115]
def PATH : List Nat := [112, 97, 116, 104]

/-- `TorrentFile::convert_string`: a byte string whose bytes pass the
UTF-8 validity test. -/
def convert_string (utf8ok : List Nat → Bool) : BencodeValue → Option (List Nat)
  | .str text => if utf8ok text then some text else none
  | _ => none

/-- `TorrentFile::extract_string`. -/
def extract_string (utf8ok : List Nat → Bool) (value : Option BencodeValue)
    (name : String) (mandatory : Bool) :
    Except TorrentFileError (Option (List Nat)) :=
  match value with
  | some v =>
    match convert_string utf8ok v with
    | some s => .ok (some s)
    | none => .error (.keyDoesNotMapToString name)
  | none => if mandatory then .error (.missingRequiredKey name) else .ok none

/-- `TorrentFile::extract_uint`: a non-negative `i64`, as `u64`. -/
def extract_uint (value : Option BencodeValue) (name : String) (mandatory : Bool) :
    Except TorrentFileError (Option Nat) :=
  match value with
  | some (.int num) =>
    if num < 0 then .error (.negativeInteger num) else .ok (some num.toNat)
  | some _ => .error (.keyDoesNotMapToInteger name)
  | none => if mandatory then .error (.missingRequiredKey name) else .ok none

/-- `TorrentFile::extract_md5sum`: byte string of exactly 16 bytes. -/
def extract_md5sum (value : Option BencodeValue) :
    Except TorrentFileError (Option (List Nat)) :=
  match value with
  | none => .ok none
  | some (.str bytes) =>
    if bytes.length = 16 then .ok (some bytes) else .error (.invalidMd5Length bytes.length)
  | some _ => .error (.keyDoesNotMapToString "md5sum")

/-- `TorrentFile::extract_list_of_string`. -/
def extract_list_of_string (utf8ok : List Nat → Bool) (value : Option BencodeValue)
    (name : String) (mandatory : Bool) :
    Except TorrentFileError (List (List Nat)) :=
  match value with
  | some (.list elements) =>
    let rec conv : List BencodeValue → Except TorrentFileError (List (List Nat))
      | [] => .ok []
      | e :: rest =>
        match convert_string utf8ok e with
        | some s =>
          match conv rest with
          | .ok l => .ok (s :: l)
          | .error err => .error err
        | none => .error (.keyDoesNotMapToString name)
    conv elements
  | some _ => .error (.keyDoesNotMapToList name)
  | none => if mandatory then .error (.missingRequiredKey name) else .ok []

/-- `TorrentFile::extract_multi_file_info`. -/
def extract_multi_file_info (utf8ok : List Nat → Bool)
    (items : List (List Nat × BencodeValue)) :
    Except TorrentFileError MultiFileInfo :=
  match extract_uint (dictGet items LENGTH) "length" true with
  | .error e => .error e
  | .ok lengthOpt =>
    match extract_list_of_string utf8ok (dictGet items PATH) "path" true with
    | .error e => .error e
    | .ok path =>
      if path.isEmpty then .error (.keyMapsToAnEmptyList "path")
      else
        match extract_md5sum (dictGet items MD5SUM) with
        | .error e => .error e
        | .ok md5 => .ok { length := lengthOpt.getD 0, md5sum := md5, path := path }

/-- `TorrentFile::extract_announce_list`. -/
def extract_announce_list (utf8ok : List Nat → Bool) (value : Option BencodeValue) :
    Except TorrentFileError (List (List (List Nat))) :=
  match value with
  | none => .ok []
  | some (.list elements) =>
    if elements.isEmpty then .error (.keyMapsToAnEmptyList "announce-list")
    else
      let rec walk : List BencodeValue → Except TorrentFileError (List (List (List Nat)))
        | [] => .ok []
        | e :: rest =>
          match e with
          | .list _ =>
            match extract_list_of_string utf8ok (some e) "announce-list" false with
            | .error err => .error err
            | .ok inner =>
              match walk rest with
              | .ok l => .ok (inner :: l)
              | .error err => .error err
          | .str bytes =>
            match convert_string utf8ok e with
            | some s =>
              match walk rest with
              | .ok l => .ok ([s] :: l)
              | .error err => .error err
            | none => .error (.invalidString bytes)
          | _ => .error .invalidAnnounceListElement
      walk elements
  | some _ => .error (.keyDoesNotMapToList "announce-list")

/-- Chunking loop, structural on a fuel bounded below by the number
of chunks (`l.length` suffices). -/
def chunksGo : Nat → Nat → List Nat → List (List Nat)
  | 0, _, _ => []
  | fuel + 1, n, l =>
    if n = 0 ∨ l.length < n then []
    else l.take n :: chunksGo fuel n (l.drop n)

/-- `slice::chunks_exact(n)`: full chunks of `n`, remainder dropped. -/
def chunksExact (n : Nat) (l : List Nat) : List (List Nat) := chunksGo l.length n l

/-- `TorrentFile::extract_pieces`: a byte string of length divisible
by 20, split into 20-byte hashes. -/
def extract_pieces (value : Option BencodeValue) :
    Except TorrentFileError (List (List Nat)) :=
  match value with
  | some (.str s) =>
    if s.length % 20 ≠ 0 then .error (.invalidNumberOfPieces s.length)
    else .ok (chunksExact 20 s)
  | some _ => .error (.keyDoesNotMapToString "pieces")
  | none => .error (.missingRequiredKey "pieces")

/-- The `files` loop of `TorrentFile::extract`: accumulates the file
entries and the wrapping `u64` sum of their lengths. -/
def extract_files (utf8ok : List Nat → Bool) :
    List BencodeValue → Except TorrentFileError (List MultiFileInfo × Nat)
  | [] => .ok ([], 0)
  | e :: rest =>
    match e with
    | .dict items =>
      match extract_multi_file_info utf8ok items with
      | .error err => .error err
      | .ok fi =>
        match extract_files utf8ok rest with
        | .error err => .error err
        | .ok (fs, len) => .ok (fi :: fs, (fi.length + len) % U64)
    | _ => .error (.keyDoesNotMapToListOfStrings "files")

/-- The part of `TorrentFile::extract` from the `piece length` key
onward, given the already-extracted top-level fields.  The final
invariant check `num_bytes_per_piece * (np - 1) >= total || total >
num_bytes_per_piece * np` is `u64` arithmetic: `np - 1` wraps to
`2^64 - 1` when `np = 0` and both products reduce modulo `2^64`. -/
def extract_inner (utf8ok : List Nat → Bool) (sha1 : List Nat → List Nat)
    (filename announce : List Nat) (announce_list : List (List (List Nat)))
    (creation_date : Option Nat) (comment created_by encoding : Option (List Nat))
    (infoVal : BencodeValue) (info_items : List (List Nat × BencodeValue)) :
    Except TorrentFileError TorrentFile :=
  match extract_uint (dictGet info_items PIECE_LENGTH) "piece length" true with
  | .error e => .error e
  | .ok nbppOpt =>
    let num_bytes_per_piece := nbppOpt.getD 0
    match extract_uint (dictGet info_items PRIVATE) "private" false with
    | .error e => .error e
    | .ok private_int =>
      match (match private_int with
             | some v =>
               if v ≤ 1 then Except.ok (v == 0)
               else Except.error (TorrentFileError.invalidPrivateValue v)
             | none => Except.ok false) with
      | .error e => .error e
      | .ok private_ =>
        match extract_pieces (dictGet info_items PIECES) with
        | .error e => .error e
        | .ok piece_hashes =>
          let num_pieces := piece_hashes.length
          let hash := sha1 (encode infoVal)
          match extract_string utf8ok (dictGet info_items NAME) "name" true with
          | .error e => .error e
          | .ok nameOpt =>
            let name := nameOpt.getD []
            match (if (dictGet info_items FILES).isSome then
                     match dictGet info_items FILES with
                     | some (.list elements) =>
                       match extract_files utf8ok elements with
                       | .error err => Except.error err
                       | .ok (files, len) =>
                         if files.isEmpty then
                           Except.error (TorrentFileError.keyMapsToAnEmptyList "files")
                         else Except.ok (FileModeInfo.multiple name files, len)
                     | some _ =>
                       Except.error (TorrentFileError.keyDoesNotMapToListOfStrings "files")
                     | none => Except.error (TorrentFileError.missingRequiredKey "files")
                   else
                     match extract_uint (dictGet info_items LENGTH) "length" true with
                     | .error err => Except.error err
                     | .ok lenOpt =>
                       match extract_md5sum (dictGet info_items MD5SUM) with
                       | .error err => Except.error err
                       | .ok md5 =>
                         Except.ok (FileModeInfo.single name (lenOpt.getD 0) md5,
                                    lenOpt.getD 0)) with
            | .error e => .error e
            | .ok (info, total_num_bytes) =>
              let np := num_pieces
              let upper_bound := num_bytes_per_piece * np % U64
              if total_num_bytes ≤ num_bytes_per_piece * ((np + U64 - 1) % U64) % U64 ∨
                 upper_bound < total_num_bytes then
                .error (.lengthMismatch total_num_bytes upper_bound)
              else
                .ok { announce := announce, announce_list := announce_list,
                      creation_date := creation_date, comment := comment,
                      created_by := created_by, encoding := encoding,
                      private_ := private_, info := info,
                      total_num_bytes := total_num_bytes,
                      num_bytes_per_piece := num_bytes_per_piece,
                      num_pieces := num_pieces, piece_hashes := piece_hashes,
                      hash := hash, filename := filename }

/-! ## Shared download state (src/peer/downloader.rs)

`FileDownloadState { done, todo }` is shared by `k` worker tasks under
an async mutex.  Each critical section of `Downloader::try_download_piece`
is one atomic step of a labelled transition relation; between steps the
interleaving of workers is arbitrary:

* `select w p` — the first critical section: pick `p` from
  `todo.difference(skip_set)` (any element: hash-set order is
  unspecified) and remove it from `todo` in the same section;
* `commit w p` — the success critical section: `done.has_piece(p)` is
  false, so `complete` marks it (the `mark_piece` result is dropped);
* `collide w p` — the success critical section when `done.has_piece(p)`
  is already true: `std::process::exit(1)`, modelled as an `aborted`
  state with no further transitions;
* `requeue w p` — hash-mismatch or transport failure: `p` joins the
  worker's local `skip_set` and is re-inserted into `todo`.

`done` is only ever written through `complete`; no operation of
`FileDownloadState` clears a bit. -/

structure WorkerState : Type where
  skip : List Nat
  holding : Option Nat
  deriving Repr, DecidableEq

structure DlState : Type where
  done : Bitfield
  todo : List Nat
  workers : List WorkerState
  aborted : Bool
  deriving Repr, DecidableEq

inductive DlLabel : Type where
  | select (w p : Nat)
  | commit (w p : Nat)
  | collide (w p : Nat)
  | requeue (w p : Nat)
  deriving Repr, DecidableEq

inductive DlStep : DlState → DlLabel → DlState → Prop where
  | select {s : DlState} {w p : Nat} {ws : WorkerState}
      (hab : s.aborted = false)
      (hw : s.workers.get? w = some ws)
      (hfree : ws.holding = none)
      (htodo : p ∈ s.todo)
      (hskip : p ∉ ws.skip) :
      DlStep s (.select w p)
        { s with todo := s.todo.erase p,
                 workers := s.workers.set w { ws with holding := some p } }
  | commit {s : DlState} {w p : Nat} {ws : WorkerState} {d2 : Bitfield}
      (hab : s.aborted = false)
      (hw : s.workers.get? w = some ws)
      (hhold : ws.holding = some p)
      (hunset : s.done.has_piece p = .ok false)
      (hmark : s.done.mark_piece p = .ok d2) :
      DlStep s (.commit w p)
        { s with done := d2,
                 workers := s.workers.set w { ws with holding := none } }
  | collide {s : DlState} {w p : Nat} {ws : WorkerState}
      (hab : s.aborted = false)
      (hw : s.workers.get? w = some ws)
      (hhold : ws.holding = some p)
      (hset : s.done.has_piece p = .ok true) :
      DlStep s (.collide w p) { s with aborted := true }
  | requeue {s : DlState} {w p : Nat} {ws : WorkerState}
      (hab : s.aborted = false)
      (hw : s.workers.get? w = some ws)
      (hhold : ws.holding = some p) :
      DlStep s (.requeue w p)
        { s with todo := s.todo.insert p,
                 workers := s.workers.set w { ws with skip := ws.skip.insert p,
                                                      holding := none } }

/-- An interleaved run: each listed label steps from the previous
state to the paired state. -/
def IsRun : DlState → List (DlLabel × DlState) → Prop
  | _, [] => True
  | s, (l, s2) :: rest => DlStep s l s2 ∧ IsRun s2 rest

/-- `FileDownloadState::new(n)` shared by `k` freshly spawned workers:
no piece done, every piece in `todo`, empty skip sets. -/
def initState (n k : Nat) : DlState :=
  { done := Bitfield.new n false,
    todo := List.range n,
    workers := List.replicate k { skip := [], holding := none },
    aborted := false }

/-- Number of `commit _ p` labels in a run (calls to `done.set(p)`). -/
def commitsFor (p : Nat) (ls : List DlLabel) : Nat :=
  ls.countP (fun l => match l with
    | .commit _ q => q == p
    | _ => false)

/-- Well-formedness of a bitfield: the mask vector covers the declared
width (true of every bitfield built by `Bitfield::new`, preserved by
`mark_piece`). -/
def BitfieldWF (bf : Bitfield) : Prop := (bf.num + 7) / 8 ≤ bf.masks.length

/-- A concrete two-step run used to witness the at-most-once theorem:
one worker selects piece 0 and commits it. -/
def runWitness : List (DlLabel × DlState) :=
  [(.select 0 0,
    { done := Bitfield.new 1 false, todo := [], workers := [{ skip := [], holding := some 0 }],
      aborted := false }),
   (.commit 0 0,
    { done := { masks := [128], num := 1, last_mask := 255 }, todo := [],
      workers := [{ skip := [], holding := none }], aborted := false })]

/-- `TorrentFile::extract`.  `.unwrap()` after a mandatory extraction
is modelled by `Option.getD` (the `None` case is unreachable: a
mandatory extraction fails rather than return `Ok(None)`). -/
def extract (utf8ok : List Nat → Bool) (urlOk : List Nat → Bool)
    (sha1 : List Nat → List Nat) (filename : List Nat)
    (items : List (List Nat × BencodeValue)) :
    Except TorrentFileError TorrentFile :=
  match extract_string utf8ok (dictGet items ANNOUNCE) "announce" true with
  | .error e => .error e
  | .ok announceOpt =>
    let announce := announceOpt.getD []
    if urlOk announce = false then .error (.invalidAnnounceUrl announce)
    else
      match extract_announce_list utf8ok (dictGet items ANNOUNCE_LIST) with
      | .error e => .error e
      | .ok announce_list =>
        match extract_uint (dictGet items CREATION_DATE) "creation date" false with
        | .error e => .error e
        | .ok creation_date =>
          match extract_string utf8ok (dictGet items COMMENT) "comment" false with
          | .error e => .error e
          | .ok comment =>
            match extract_string utf8ok (dictGet items CREATED_BY) "created by" false with
            | .error e => .error e
            | .ok created_by =>
              match extract_string utf8ok (dictGet items ENCODING) "encoding" false with
              | .error e => .error e
              | .ok encoding =>
                match dictGet items INFO with
                | none => .error (.missingRequiredKey "info")
                | some infoVal =>
                  match infoVal with
                  | .dict info_items =>
                    extract_inner utf8ok sha1 filename announce announce_list
                      creation_date comment created_by encoding infoVal info_items
                  | _ => .error (.keyDoesNotMapToDictionary "info")

/-- A complete single-file info dictionary whose `private` key maps to
the given integer: one piece of one byte, name `"a"`, pieces a single
20-zero-byte hash. -/
def infoWithPrivate (v : Int) : List (List Nat × BencodeValue) :=
  [(LENGTH, .int 1), (NAME, .str [97]), (PIECE_LENGTH, .int 1),
   (PIECES, .str (List.replicate 20 0)), (PRIVATE, .int v)]

/-- A metainfo dictionary with announce `"http"` and the info
dictionary above. -/
def metainfoWithPrivate (v : Int) : List (List Nat × BencodeValue) :=
  [(ANNOUNCE, .str [104, 116, 116, 112]), (INFO, .dict (infoWithPrivate v))]

/-- An info dictionary mapping `pieces` to the empty byte string. -/
def infoEmptyPieces : List (List Nat × BencodeValue) :=
  [(LENGTH, .int 1), (NAME, .str [97]), (PIECE_LENGTH, .int 1), (PIECES, .str [])]

/-- A metainfo dictionary whose info dictionary has an empty `pieces`
string. -/
def metainfoEmptyPieces : List (List Nat × BencodeValue) :=
  [(ANNOUNCE, .str [104, 116, 116, 112]), (INFO, .dict infoEmptyPieces)]

/-- A canonical 68-byte handshake for a given 20-byte info hash:
`0x13`, the protocol string, eight zero reserved bytes, the hash, and
a 20-byte peer id. -/
def goodHandshake (hash : List Nat) : List Nat :=
  19 :: P_STR ++ List.replicate 8 0 ++ hash ++ PEER_ID

end Torrentium

namespace Torrentium

/-! ## Decimal rendering lemmas -/

/-- Enough fuel renders the same digits, with the accumulator appended. -/
theorem natDecimalGo_append (n : Nat) : ∀ (fuel : Nat) (acc : List Nat), n ≤ fuel →
    natDecimalGo fuel n acc = natDecimalGo n n [] ++ acc := by
  induction n using Nat.strong_induction_on with
  | _ n ih =>
    intro fuel acc hfuel
    cases n with
    | zero => cases fuel <;> simp [natDecimalGo]
    | succ m =>
      cases fuel with
      | zero => omega
      | succ f =>
        rw [natDecimalGo, natDecimalGo]
        simp only [Nat.succ_ne_zero, if_false]
        have hdiv : (m + 1) / 10 < m + 1 := Nat.div_lt_self (Nat.succ_pos m) (by omega)
        rw [ih _ hdiv f _ (by omega), ih _ hdiv m _ (by omega)]
        simp

/-- One unfolding of the digit rendering for a positive number. -/
theorem natDecimalGo_rec {m : Nat} (h : m ≠ 0) :
    natDecimalGo m m [] = natDecimalGo (m / 10) (m / 10) [] ++ [48 + m % 10] := by
  cases m with
  | zero => exact absurd rfl h
  | succ k =>
    rw [natDecimalGo]
    simp only [Nat.succ_ne_zero, if_false]
    have hdiv : (k + 1) / 10 < k + 1 := Nat.div_lt_self (Nat.succ_pos k) (by omega)
    rw [natDecimalGo_append _ k [48 + (k + 1) % 10] (by omega)]

/-- Every rendered byte is an ASCII digit. -/
theorem natDecimalGo_digits (m : Nat) : ∀ d ∈ natDecimalGo m m [], isDigitB d = true := by
  induction m using Nat.strong_induction_on with
  | _ m ih =>
    cases m with
    | zero => simp [natDecimalGo]
    | succ k =>
      rw [natDecimalGo_rec (Nat.succ_ne_zero k)]
      intro d hd
      rcases List.mem_append.mp hd with hmem | hmem
      · exact ih _ (Nat.div_lt_self (Nat.succ_pos k) (by omega)) d hmem
      · have : d = 48 + (k + 1) % 10 := List.mem_singleton.mp hmem
        have h10 : (k + 1) % 10 < 10 := Nat.mod_lt _ (by omega)
        simp [this, isDigitB]
        omega

/-- The rendering of a positive number starts with a nonzero digit. -/
theorem natDecimalGo_head {m : Nat} (h : m ≠ 0) :
    ∃ d tl, natDecimalGo m m [] = d :: tl ∧ 49 ≤ d ∧ d ≤ 57 := by
  induction m using Nat.strong_induction_on with
  | _ m ih =>
    rw [natDecimalGo_rec h]
    by_cases hsmall : m / 10 = 0
    · refine ⟨48 + m % 10, [], ?_, ?_, ?_⟩
      · rw [hsmall]
        simp [natDecimalGo]
      · have hm10 : m < 10 := (Nat.div_eq_zero_iff (by omega)).mp hsmall
        have : m % 10 = m := Nat.mod_eq_of_lt hm10
        omega
      · have h10 : m % 10 < 10 := Nat.mod_lt _ (by omega)
        omega
    · obtain ⟨d, tl, heq, hlo, hhi⟩ :=
        ih (m / 10) (Nat.div_lt_self (Nat.pos_of_ne_zero h) (by omega)) hsmall
      exact ⟨d, tl ++ [48 + m % 10], by rw [heq]; simp, hlo, hhi⟩

/-- Appending one digit multiplies the value by ten and adds it. -/
theorem digitsVal_append (l : List Nat) (d : Nat) :
    digitsVal (l ++ [d]) = 10 * digitsVal l + (d - 48) := by
  simp [digitsVal, List.foldl_append]

/-- The rendered digits evaluate back to the number. -/
theorem digitsVal_natDecimalGo (m : Nat) : digitsVal (natDecimalGo m m []) = m := by
  induction m using Nat.strong_induction_on with
  | _ m ih =>
    cases m with
    | zero => simp [natDecimalGo, digitsVal]
    | succ k =>
      rw [natDecimalGo_rec (Nat.succ_ne_zero k), digitsVal_append,
        ih _ (Nat.div_lt_self (Nat.succ_pos k) (by omega))]
      omega

/-- `natDecimal` facts: digits only, nonempty, correct value. -/
theorem natDecimal_digits (m : Nat) : ∀ d ∈ natDecimal m, isDigitB d = true := by
  unfold natDecimal
  by_cases h : m = 0
  · simp [h, isDigitB]
  · rw [if_neg h, natDecimalGo_append m m [] (le_refl m)]
    simpa using natDecimalGo_digits m

theorem natDecimal_ne_nil (m : Nat) : natDecimal m ≠ [] := by
  unfold natDecimal
  by_cases h : m = 0
  · simp [h]
  · rw [if_neg h, natDecimalGo_append m m [] (le_refl m)]
    obtain ⟨d, tl, heq, _, _⟩ := natDecimalGo_head h
    simp [heq]

theorem digitsVal_natDecimal (m : Nat) : digitsVal (natDecimal m) = m := by
  unfold natDecimal
  by_cases h : m = 0
  · simp [h, digitsVal]
  · rw [if_neg h, natDecimalGo_append m m [] (le_refl m), List.append_nil]
    exact digitsVal_natDecimalGo m

/-- The leading-zero test fails on every decimal rendering: either the
number is zero and the rendering is the single digit `0`, or the head
digit is nonzero. -/
theorem natDecimal_no_leading_zero (m : Nat) :
    ¬((natDecimal m).headD 0 = 48 ∧ 1 < (natDecimal m).length) := by
  unfold natDecimal
  by_cases h : m = 0
  · simp [h]
  · rw [if_neg h, natDecimalGo_append m m [] (le_refl m), List.append_nil]
    obtain ⟨d, tl, heq, hlo, _⟩ := natDecimalGo_head h
    rw [heq]
    rintro ⟨hd, _⟩
    simp at hd
    omega

/-! ## Digit-run and positional lemmas -/

/-- A run of digits followed by anything scans past exactly the
digits. -/
theorem digitRun_append {l : List Nat} (h : ∀ d ∈ l, isDigitB d = true)
    (rest : List Nat) : digitRun (l ++ rest) = l.length + digitRun rest := by
  induction l with
  | nil => simp
  | cons a as ih =>
    rw [List.cons_append, digitRun, if_pos (h a (List.mem_cons_self a as))]
    rw [ih (fun d hd => h d (List.mem_cons_of_mem a hd))]
    simp
    omega

/-- A non-digit head stops the scan. -/
theorem digitRun_stop {r : Nat} (h : isDigitB r = false) (rs : List Nat) :
    digitRun (r :: rs) = 0 := by
  simp [digitRun, h]

/-- Reading one byte at `pos` via a `drop` decomposition. -/
theorem drop_facts {c : List Nat} {pos x : Nat} {rest : List Nat}
    (h : c.drop pos = x :: rest) :
    c.getD pos 0 = x ∧ c.drop (pos + 1) = rest ∧ pos + 1 ≤ c.length := by
  have hlen : (c.drop pos).length = c.length - pos := List.length_drop pos c
  rw [h] at hlen
  refine ⟨?_, ?_, by simp at hlen; omega⟩
  · rw [List.getD_eq_getD_get?, List.get?_eq_getElem?]
    have hgg := List.getElem?_drop c pos 0
    rw [h] at hgg
    simp only [List.getElem?_cons_zero, Nat.add_zero] at hgg
    rw [← hgg]
    rfl
  · have := List.drop_drop 1 pos c
    rw [h] at this
    simpa [Nat.add_comm] using this.symm

/-! ## Parsing the canonical encodings -/

/-- `parse_integer_value` on a decimal rendering followed by a
non-digit byte: succeeds with the rendered value, consuming exactly
the digits. -/
theorem parse_integer_value_natDecimal {c : List Nat} {pos m : Nat} {r : Nat}
    {rs : List Nat} (lz : Bool) (hm : m ≤ I64_MAX)
    (h : c.drop pos = natDecimal m ++ r :: rs) (hr : isDigitB r = false) :
    parse_integer_value c pos lz = .ok (m, pos + (natDecimal m).length) := by
  have hlen : (c.drop pos).length = c.length - pos := List.length_drop pos c
  rw [h] at hlen
  have hrun : digitRun (c.drop pos) = (natDecimal m).length := by
    rw [h, digitRun_append (natDecimal_digits m), digitRun_stop hr]
    omega
  have hslice : (c.drop pos).take (natDecimal m).length = natDecimal m := by
    rw [h]
    exact List.take_left _ _
  unfold parse_integer_value
  rw [hrun]
  rw [if_neg (by simp at hlen; omega)]
  rw [hslice]
  rw [if_neg (by simpa using natDecimal_ne_nil m)]
  rw [if_neg ?hlz]
  case hlz =>
    rintro ⟨-, hhead, hlen1⟩
    exact natDecimal_no_leading_zero m ⟨hhead, hlen1⟩
  rw [if_pos (by rw [digitsVal_natDecimal]; exact hm), digitsVal_natDecimal]

/-- `parse_string_raw` on a canonical string encoding. -/
theorem parse_string_raw_encode {c : List Nat} {pos : Nat} {s suf : List Nat}
    (hlen : s.length ≤ I64_MAX)
    (h : c.drop pos = natDecimal s.length ++ 58 :: (s ++ suf)) :
    parse_string_raw c pos =
      .ok (s, pos + (natDecimal s.length).length + 1 + s.length) := by
  have hiv := parse_integer_value_natDecimal true hlen h (by simp [isDigitB])
  have hdlen : (c.drop (pos + (natDecimal s.length).length)) = 58 :: (s ++ suf) := by
    have hd : (c.drop pos).drop (natDecimal s.length).length = 58 :: (s ++ suf) := by
      rw [h]
      exact List.drop_left _ _
    rw [List.drop_drop] at hd
    simpa [Nat.add_comm] using hd
  obtain ⟨hget, hdrop1, hlt⟩ := drop_facts hdlen
  have hlen2 : (c.drop (pos + (natDecimal s.length).length + 1)).length =
      s.length + suf.length := by
    rw [hdrop1]
    simp
  have htake : (c.drop (pos + (natDecimal s.length).length + 1)).take s.length = s := by
    rw [hdrop1]
    exact List.take_left _ _
  rw [List.length_drop] at hlen2
  simp only [parse_string_raw, hiv]
  rw [if_neg (by omega)]
  rw [hget]
  rw [if_neg (by simp)]
  rw [if_neg (by omega)]
  rw [htake]

/-- `parse_integer_value` on a decimal rendering whose value overflows
`i64::MAX`: fails with `IllegalInteger` at the start of the digits. -/
theorem parse_integer_value_overflow {c : List Nat} {pos m : Nat} {r : Nat}
    {rs : List Nat} (lz : Bool) (hm : I64_MAX < m)
    (h : c.drop pos = natDecimal m ++ r :: rs) (hr : isDigitB r = false) :
    parse_integer_value c pos lz = .error (.illegalInteger pos) := by
  have hlen : (c.drop pos).length = c.length - pos := List.length_drop pos c
  rw [h] at hlen
  have hrun : digitRun (c.drop pos) = (natDecimal m).length := by
    rw [h, digitRun_append (natDecimal_digits m), digitRun_stop hr]
    omega
  have hslice : (c.drop pos).take (natDecimal m).length = natDecimal m := by
    rw [h]
    exact List.take_left _ _
  unfold parse_integer_value
  rw [hrun]
  rw [if_neg (by simp at hlen; omega)]
  rw [hslice]
  rw [if_neg (by simpa using natDecimal_ne_nil m)]
  rw [if_neg ?hlz]
  case hlz =>
    rintro ⟨-, hhead, hlen1⟩
    exact natDecimal_no_leading_zero m ⟨hhead, hlen1⟩
  rw [if_neg (by rw [digitsVal_natDecimal]; omega)]

/-- `parse_integer` on the canonical encoding of an `i64` whose
magnitude fits (`-(2^63) < n < 2^63`): succeeds with the integer,
consuming sign, digits and the closing `e`. -/
theorem parse_integer_encode {c : List Nat} {pos : Nat} {n : Int} {suf : List Nat}
    (hlo : -(2 ^ 63) < n) (hhi : n < 2 ^ 63)
    (h : c.drop pos = 105 :: (intDecimal n ++ 101 :: suf)) :
    parse_integer c pos = .ok (.int n, pos + (intDecimal n).length + 2) := by
  obtain ⟨hget0, hdrop1, hlt0⟩ := drop_facts h
  have habs : (n.natAbs : Nat) ≤ I64_MAX := by
    unfold I64_MAX
    omega
  by_cases hneg : n < 0
  · have hid : intDecimal n = 45 :: natDecimal n.natAbs := by
      simp [intDecimal, hneg]
    rw [hid] at hdrop1
    obtain ⟨hget1, hdrop2, hlt1⟩ := drop_facts hdrop1
    have hdrop2' : c.drop (pos + 2) = natDecimal n.natAbs ++ 101 :: suf := by
      rw [show pos + 2 = pos + 1 + 1 from rfl]
      simpa using hdrop2
    have hiv := parse_integer_value_natDecimal false habs hdrop2' (by simp [isDigitB])
    have hdrop3 : c.drop (pos + 2 + (natDecimal n.natAbs).length) = 101 :: suf := by
      have hdd : (c.drop (pos + 2)).drop (natDecimal n.natAbs).length = 101 :: suf := by
        rw [hdrop2']
        exact List.drop_left _ _
      rw [List.drop_drop] at hdd
      simpa [Nat.add_comm] using hdd
    obtain ⟨hget3, _, hlt3⟩ := drop_facts hdrop3
    have hee : expect_end c (pos + 2 + (natDecimal n.natAbs).length) = .ok () := by
      unfold expect_end
      rw [if_neg (by omega), hget3, if_pos rfl]
    have hnz : n.natAbs ≠ 0 := by omega
    simp only [parse_integer, ensure_available]
    rw [if_neg (by omega)]
    simp only [hget1, if_pos rfl, reduceIte]
    rw [show pos + 1 + 1 = pos + 2 from rfl]
    simp only [hiv]
    rw [if_neg (by simp [hnz])]
    simp only [hee]
    simp only [Except.ok.injEq, Prod.mk.injEq, BencodeValue.int.injEq]
    refine ⟨by omega, ?_⟩
    rw [hid]
    simp
    omega
  · have hid : intDecimal n = natDecimal n.natAbs := by
      simp [intDecimal, hneg]
    rw [hid] at hdrop1
    obtain ⟨d, tl, hdt⟩ := List.exists_cons_of_ne_nil (natDecimal_ne_nil n.natAbs)
    have hd48 : 48 ≤ d ∧ d ≤ 57 := by
      have := natDecimal_digits n.natAbs d (by rw [hdt]; exact List.mem_cons_self _ _)
      simpa [isDigitB] using this
    have hget1 : c.getD (pos + 1) 0 = d := by
      have hdf := drop_facts (show c.drop (pos + 1) = d :: (tl ++ 101 :: suf) from by
        rw [hdrop1, hdt]; simp)
      exact hdf.1
    have hiv := parse_integer_value_natDecimal false habs hdrop1 (by simp [isDigitB])
    have hdrop3 : c.drop (pos + 1 + (natDecimal n.natAbs).length) = 101 :: suf := by
      have hdd : (c.drop (pos + 1)).drop (natDecimal n.natAbs).length = 101 :: suf := by
        rw [hdrop1]
        exact List.drop_left _ _
      rw [List.drop_drop] at hdd
      simpa [Nat.add_comm] using hdd
    obtain ⟨hget3, _, hlt3⟩ := drop_facts hdrop3
    have hee : expect_end c (pos + 1 + (natDecimal n.natAbs).length) = .ok () := by
      unfold expect_end
      rw [if_neg (by omega), hget3, if_pos rfl]
    simp only [parse_integer, ensure_available]
    rw [if_neg (by omega)]
    simp only [hget1]
    rw [if_neg (show ¬(d = 45) from by omega)]
    simp only [hiv]
    rw [if_neg (by rintro ⟨-, h45⟩; omega)]
    simp only [hee]
    rw [if_neg (show ¬(d = 45) from by omega)]
    simp only [Except.ok.injEq, Prod.mk.injEq, BencodeValue.int.injEq]
    refine ⟨by omega, ?_⟩
    rw [hid]
    omega

/-- `parse_value` dispatches an `i` byte to `parse_integer`. -/
theorem parse_value_int {fuel : Nat} {c : List Nat} {pos : Nat} {n : Int}
    {suf : List Nat} (hlo : -(2 ^ 63) < n) (hhi : n < 2 ^ 63)
    (h : c.drop pos = 105 :: (intDecimal n ++ 101 :: suf)) :
    parse_value (fuel + 1) c pos = .ok (.int n, pos + (intDecimal n).length + 2) := by
  obtain ⟨hget0, _, hlt0⟩ := drop_facts h
  rw [parse_value]
  rw [if_neg (by omega), hget0, if_pos rfl]
  exact parse_integer_encode hlo hhi h

/-- `deserialize` on the canonical encoding of an `i64` in range. -/
theorem deserialize_int_encode (n : Int) (hlo : -(2 ^ 63) < n) (hhi : n < 2 ^ 63) :
    deserialize (105 :: (intDecimal n ++ [101])) = .ok (.int n) := by
  have hdrop : (105 :: (intDecimal n ++ [101])).drop 0 =
      105 :: (intDecimal n ++ 101 :: ([] : List Nat)) := by simp
  have hlen : (105 :: (intDecimal n ++ [101])).length = (intDecimal n).length + 2 := by
    simp
  unfold deserialize
  rw [hlen, parse_value_int hlo hhi hdrop]
  simp

/-- `deserialize` rejects an integer literal whose magnitude overflows
`i64::MAX`, reporting `IllegalInteger` at the digit position. -/
theorem deserialize_int_overflow (m : Nat) (hm : I64_MAX < m) :
    deserialize (105 :: (natDecimal m ++ [101])) = .error (.illegalInteger 1) ∧
    deserialize (105 :: 45 :: (natDecimal m ++ [101])) = .error (.illegalInteger 2) := by
  obtain ⟨d, tl, hdt⟩ := List.exists_cons_of_ne_nil (natDecimal_ne_nil m)
  have hd48 : 48 ≤ d ∧ d ≤ 57 := by
    have := natDecimal_digits m d (by rw [hdt]; exact List.mem_cons_self _ _)
    simpa [isDigitB] using this
  constructor
  · set c := 105 :: (natDecimal m ++ [101]) with hc
    have hdrop1 : c.drop 1 = natDecimal m ++ 101 :: ([] : List Nat) := by simp [hc]
    have hget1 : c.getD 1 0 = d := by
      have hdf := drop_facts (show c.drop 1 = d :: (tl ++ 101 :: []) from by
        rw [hdrop1, hdt]; simp)
      exact hdf.1
    have hiv := parse_integer_value_overflow false hm hdrop1 (by simp [isDigitB])
    have hclen : 3 ≤ c.length := by
      have : (c.drop 1).length = c.length - 1 := List.length_drop 1 c
      rw [hdrop1] at this
      have h1 := List.length_pos.mpr (natDecimal_ne_nil m)
      simp at this
      omega
    unfold deserialize
    obtain ⟨f, hf⟩ : ∃ f, c.length + 1 = f + 1 := ⟨c.length, rfl⟩
    rw [hf, parse_value]
    rw [if_neg (by omega)]
    rw [show c.getD 0 0 = 105 from rfl, if_pos rfl]
    simp only [parse_integer, ensure_available]
    rw [if_neg (by omega)]
    rw [hget1]
    rw [if_neg (by omega)]
    rw [hiv]
  · set c := 105 :: 45 :: (natDecimal m ++ [101]) with hc
    have hdrop2 : c.drop 2 = natDecimal m ++ 101 :: ([] : List Nat) := by simp [hc]
    have hiv := parse_integer_value_overflow false hm hdrop2 (by simp [isDigitB])
    have hclen : 4 ≤ c.length := by
      have : (c.drop 2).length = c.length - 2 := List.length_drop 2 c
      rw [hdrop2] at this
      have h1 := List.length_pos.mpr (natDecimal_ne_nil m)
      simp at this
      omega
    unfold deserialize
    obtain ⟨f, hf⟩ : ∃ f, c.length + 1 = f + 1 := ⟨c.length, rfl⟩
    rw [hf, parse_value]
    rw [if_neg (by omega)]
    rw [show c.getD 0 0 = 105 from rfl, if_pos rfl]
    simp only [parse_integer, ensure_available]
    rw [if_neg (by omega)]
    rw [show c.getD 1 0 = 45 from rfl, if_pos rfl]
    rw [hiv]

/-! ## Claim C6: signed 64-bit integer decoding -/

/-- C6 (amended).  The decoder accepts `i<decimal>e` exactly on the
range `-(2^63) < n ≤ 2^63 - 1`: every such literal decodes to
`Integer(n)`; `i-0e` fails with `IllegalInteger`; and a literal whose
magnitude exceeds `i64::MAX` — including the `i64` minimum
`-2^63`, whose magnitude `2^63` is parsed before the sign is applied —
fails with `IllegalInteger`. -/
theorem bencode_integer_signed64 :
    (∀ n : Int, -(2 ^ 63) < n → n < 2 ^ 63 →
      deserialize (105 :: (intDecimal n ++ [101])) = .ok (.int n)) ∧
    deserialize [105, 45, 48, 101] = .error (.illegalInteger 3) ∧
    (∀ m : Nat, 2 ^ 63 - 1 < m →
      deserialize (105 :: (natDecimal m ++ [101])) = .error (.illegalInteger 1) ∧
      deserialize (105 :: 45 :: (natDecimal m ++ [101])) = .error (.illegalInteger 2)) := by
  refine ⟨deserialize_int_encode, ?_, fun m hm => deserialize_int_overflow m hm⟩
  simp [deserialize, parse_value, parse_integer, ensure_available, expect_end,
    parse_integer_value, digitRun, isDigitB, digitsVal, I64_MAX]

/-- Witness for `bencode_integer_signed64`: `i5e` and `i-7e` decode,
and the literal of `2^63` overflows. -/
theorem bencode_integer_signed64_witness :
    deserialize (105 :: (intDecimal 5 ++ [101])) = .ok (.int 5) ∧
    deserialize (105 :: (intDecimal (-7) ++ [101])) = .ok (.int (-7)) ∧
    deserialize (105 :: (natDecimal (2 ^ 63) ++ [101])) = .error (.illegalInteger 1) :=
  ⟨bencode_integer_signed64.1 5 (by norm_num) (by norm_num),
   bencode_integer_signed64.1 (-7) (by norm_num) (by norm_num),
   (bencode_integer_signed64.2.2 (2 ^ 63) (by norm_num)).1⟩

/-- C6, the claim as stated: decoding the literal of the `i64` minimum
`-2^63` does not succeed — the magnitude `2^63` overflows `i64::MAX`
in `parse_integer_value` before the sign is applied, so the decoder
returns `IllegalInteger` instead of `Integer(-2^63)`. -/
theorem bencode_int_min_literal_fails :
    deserialize (105 :: (intDecimal (-(2 ^ 63)) ++ [101])) =
      .error (.illegalInteger 2) := by
  have hid : intDecimal (-(2 ^ 63)) = 45 :: natDecimal ((2 : Int) ^ 63).natAbs := by
    simp [intDecimal]
  rw [hid]
  have hnabs : ((2 : Int) ^ 63).natAbs = 2 ^ 63 := by norm_num
  rw [hnabs]
  exact (deserialize_int_overflow (2 ^ 63) (by norm_num [I64_MAX])).2

/-! ## Round-trip machinery for the re-serialisation law -/

/-- Lexicographic comparison swaps `lt` and `gt`. -/
theorem byteCmp_swap : ∀ (a b : List Nat), byteCmp a b = .lt → byteCmp b a = .gt := by
  intro a
  induction a with
  | nil =>
    intro b hb
    cases b with
    | nil => simp [byteCmp] at hb
    | cons x xs => simp [byteCmp]
  | cons x xs ih =>
    intro b hb
    cases b with
    | nil => simp [byteCmp] at hb
    | cons y ys =>
      unfold byteCmp at hb ⊢
      by_cases hxy : x < y
      · rw [if_pos hxy] at hb
        rw [if_neg (by omega), if_pos hxy]
      · rw [if_neg hxy] at hb
        by_cases hyx : y < x
        · rw [if_pos hyx] at hb
          exact absurd hb (by simp)
        · rw [if_neg hyx] at hb
          rw [if_neg hyx, if_neg hxy]
          exact ih ys hb

/-- `getLast?` commutes with `map`. -/
theorem getLast?_map {α β : Type} (f : α → β) : ∀ (l : List α),
    (l.map f).getLast? = l.getLast?.map f := by
  intro l
  induction l with
  | nil => rfl
  | cons a as ih =>
    cases as with
    | nil => rfl
    | cons b bs =>
      rw [List.map_cons, List.map_cons, List.getLast?_cons_cons,
        List.getLast?_cons_cons, ← List.map_cons]
      exact ih

/-- Every canonical encoding is nonempty and starts with a byte other
than `e` (0x65): `i`, `l`, `d`, or a length digit. -/
theorem encode_head (v : BencodeValue) :
    ∃ d tl, encode v = d :: tl ∧ d ≠ 101 := by
  cases v with
  | int i => exact ⟨105, intDecimal i ++ [101], by simp [encode], by omega⟩
  | str s =>
    obtain ⟨d, tl, hdt⟩ := List.exists_cons_of_ne_nil (natDecimal_ne_nil s.length)
    have hd := natDecimal_digits s.length d (by rw [hdt]; exact List.mem_cons_self _ _)
    simp [isDigitB] at hd
    exact ⟨d, tl ++ 58 :: s, by simp [encode, hdt], by omega⟩
  | list xs => exact ⟨108, encodeList xs ++ [101], by simp [encode], by omega⟩
  | dict xs => exact ⟨100, encodeDict xs ++ [101], by simp [encode], by omega⟩

/-- Dropping past a known decomposition of the remaining input. -/
theorem drop_of_drop_append {c : List Nat} {pos : Nat} {l rest : List Nat}
    (h : c.drop pos = l ++ rest) : c.drop (pos + l.length) = rest := by
  have hd : (c.drop pos).drop l.length = rest := by
    rw [h]
    exact List.drop_left _ _
  rw [List.drop_drop] at hd
  simpa [Nat.add_comm] using hd

/-- The fuel measure is positive. -/
theorem bsize_pos (v : BencodeValue) : 1 ≤ bsize v := by
  cases v <;> simp [bsize]

theorem bsizeList_pos (xs : List BencodeValue) : 1 ≤ bsizeList xs := by
  cases xs <;> simp [bsizeList]

theorem bsizeDict_pos (ps : List (List Nat × BencodeValue)) : 1 ≤ bsizeDict ps := by
  cases ps with
  | nil => simp [bsizeDict]
  | cons p ps => obtain ⟨k, v⟩ := p; simp [bsizeDict]

/-- Round-trip of the three mutually recursive parsers over the
canonical encoder, by strong induction on fuel: a value parse on
`encode v`, a list loop on `encodeList xs` up to the closing `e`, and
a dictionary loop on `encodeDict ps` up to the closing `e` (with the
already-accumulated pairs `acc`, whose keys precede those of `ps` in
the required strict order). -/
theorem parse_encode_ind : ∀ fuel : Nat,
    (∀ v : BencodeValue, Valid v → bsize v ≤ fuel →
      ∀ (c : List Nat) (pos : Nat) (suf : List Nat), c.drop pos = encode v ++ suf →
        parse_value fuel c pos = .ok (v, pos + (encode v).length)) ∧
    (∀ xs : List BencodeValue, (∀ v ∈ xs, Valid v) → bsizeList xs ≤ fuel →
      ∀ (c : List Nat) (pos : Nat) (suf : List Nat),
        c.drop pos = encodeList xs ++ 101 :: suf →
        parse_list fuel c pos = .ok (xs, pos + (encodeList xs).length + 1)) ∧
    (∀ (ps acc : List (List Nat × BencodeValue)),
        (∀ p ∈ ps, p.1.length ≤ I64_MAX) → (∀ p ∈ ps, Valid p.2) →
        List.Chain' (fun a b => byteCmp a b = .lt)
          (acc.map Prod.fst ++ ps.map Prod.fst) →
        bsizeDict ps ≤ fuel →
        ∀ (c : List Nat) (pos : Nat) (suf : List Nat),
          c.drop pos = encodeDict ps ++ 101 :: suf →
          parse_dict fuel c pos acc = .ok (acc ++ ps, pos + (encodeDict ps).length + 1)) := by
  intro fuel
  induction fuel using Nat.strong_induction_on with
  | _ fuel ih =>
  cases fuel with
  | zero =>
    refine ⟨fun v _ hsz => absurd hsz (by have := bsize_pos v; omega),
            fun xs _ hsz => absurd hsz (by have := bsizeList_pos xs; omega),
            fun ps _ _ _ _ hsz => absurd hsz (by have := bsizeDict_pos ps; omega)⟩
  | succ f =>
  have ihf := ih f (Nat.lt_succ_self f)
  refine ⟨?_, ?_, ?_⟩
  · -- parse_value on encode v
    intro v hv hsz c pos suf hdrop
    cases v with
    | int i =>
      cases hv with
      | int hlo hhi =>
        have hshape : c.drop pos = 105 :: (intDecimal i ++ 101 :: suf) := by
          rw [hdrop]
          simp [encode]
        rw [parse_value_int hlo hhi hshape]
        simp only [Except.ok.injEq, Prod.mk.injEq, true_and]
        simp [encode]
        omega
    | str s =>
      cases hv with
      | str hslen =>
        obtain ⟨d, tl, hdt⟩ := List.exists_cons_of_ne_nil (natDecimal_ne_nil s.length)
        have hd48 : 48 ≤ d ∧ d ≤ 57 := by
          have := natDecimal_digits s.length d (by rw [hdt]; exact List.mem_cons_self _ _)
          simpa [isDigitB] using this
        have hshape : c.drop pos = natDecimal s.length ++ 58 :: (s ++ suf) := by
          rw [hdrop]
          simp [encode]
        obtain ⟨hget, -, hlt⟩ := drop_facts
          (show c.drop pos = d :: (tl ++ 58 :: (s ++ suf)) from by rw [hshape, hdt]; simp)
        have hpsr := parse_string_raw_encode hslen hshape
        rw [parse_value]
        rw [if_neg (by omega), hget]
        rw [if_neg (by omega), if_neg (by omega), if_neg (by omega),
          if_pos (by simp [isDigitB]; omega)]
        simp only [hpsr]
        simp only [Except.ok.injEq, Prod.mk.injEq, true_and]
        simp [encode]
        omega
    | list xs =>
      cases hv with
      | list hxs =>
        have hshape : c.drop pos = 108 :: (encodeList xs ++ 101 :: suf) := by
          rw [hdrop]
          simp [encode]
        obtain ⟨hget, hdrop1, hlt⟩ := drop_facts hshape
        have hsz2 : bsizeList xs ≤ f := by
          simp [bsize] at hsz
          omega
        have hpl := ihf.2.1 xs hxs hsz2 c (pos + 1) suf hdrop1
        rw [parse_value]
        rw [if_neg (by omega), hget]
        rw [if_neg (by omega), if_pos rfl]
        simp only [hpl]
        simp only [Except.ok.injEq, Prod.mk.injEq, true_and]
        simp [encode]
        omega
    | dict xs =>
      cases hv with
      | dict hklen hkval hchain =>
        have hshape : c.drop pos = 100 :: (encodeDict xs ++ 101 :: suf) := by
          rw [hdrop]
          simp [encode]
        obtain ⟨hget, hdrop1, hlt⟩ := drop_facts hshape
        have hsz2 : bsizeDict xs ≤ f := by
          simp [bsize] at hsz
          omega
        have hpd := ihf.2.2 xs [] hklen hkval (by simpa using hchain) hsz2
          c (pos + 1) suf hdrop1
        rw [parse_value]
        rw [if_neg (by omega), hget]
        rw [if_neg (by omega), if_neg (by omega), if_pos rfl]
        simp only [hpd]
        simp only [List.nil_append, Except.ok.injEq, Prod.mk.injEq, true_and]
        simp [encode]
        omega
  · -- parse_list loop on encodeList xs ++ 'e'
    intro xs hxs hsz c pos suf hdrop
    cases xs with
    | nil =>
      have hshape : c.drop pos = 101 :: suf := by
        rw [hdrop]
        simp [encodeList]
      obtain ⟨hget, -, hlt⟩ := drop_facts hshape
      rw [parse_list]
      rw [if_neg (by omega), hget, if_pos rfl]
      simp [encodeList]
    | cons v vs =>
      have hshape : c.drop pos = encode v ++ (encodeList vs ++ 101 :: suf) := by
        rw [hdrop]
        simp [encodeList]
      obtain ⟨d, tl, hdt, hdne⟩ := encode_head v
      obtain ⟨hget, -, hlt⟩ := drop_facts
        (show c.drop pos = d :: (tl ++ (encodeList vs ++ 101 :: suf)) from by
          rw [hshape, hdt]; simp)
      have hszv : bsize v ≤ f := by
        simp [bsizeList] at hsz
        omega
      have hszvs : bsizeList vs ≤ f := by
        simp [bsizeList] at hsz
        omega
      have hpv := ihf.1 v (hxs v (List.mem_cons_self v vs)) hszv c pos
        (encodeList vs ++ 101 :: suf) hshape
      have hdrop2 := drop_of_drop_append hshape
      have hpl := ihf.2.1 vs (fun w hw => hxs w (List.mem_cons_of_mem v hw)) hszvs
        c (pos + (encode v).length) suf hdrop2
      rw [parse_list]
      rw [if_neg (by omega), hget, if_neg hdne]
      simp only [hpv, hpl]
      simp only [Except.ok.injEq, Prod.mk.injEq, true_and]
      simp [encodeList]
      omega
  · -- parse_dict loop on encodeDict ps ++ 'e'
    intro ps acc hklen hkval hchain hsz c pos suf hdrop
    cases ps with
    | nil =>
      have hshape : c.drop pos = 101 :: suf := by
        rw [hdrop]
        simp [encodeDict]
      obtain ⟨hget, -, hlt⟩ := drop_facts hshape
      rw [parse_dict]
      rw [if_neg (by omega), hget, if_pos rfl]
      simp [encodeDict]
    | cons p ps2 =>
      obtain ⟨k, v⟩ := p
      have hklen1 : k.length ≤ I64_MAX := hklen (k, v) (List.mem_cons_self _ _)
      have hshape : c.drop pos =
          natDecimal k.length ++ 58 :: (k ++ (encode v ++ (encodeDict ps2 ++ 101 :: suf))) := by
        rw [hdrop]
        simp [encodeDict]
      obtain ⟨d, tl, hdt⟩ := List.exists_cons_of_ne_nil (natDecimal_ne_nil k.length)
      have hd48 : 48 ≤ d ∧ d ≤ 57 := by
        have := natDecimal_digits k.length d (by rw [hdt]; exact List.mem_cons_self _ _)
        simpa [isDigitB] using this
      obtain ⟨hget, -, hlt⟩ := drop_facts
        (show c.drop pos = d :: (tl ++ 58 :: (k ++ (encode v ++ (encodeDict ps2 ++ 101 :: suf))))
          from by rw [hshape, hdt]; simp)
      have hpsr := parse_string_raw_encode hklen1 hshape
      have hdropk : c.drop (pos + (natDecimal k.length).length + 1 + k.length) =
          encode v ++ (encodeDict ps2 ++ 101 :: suf) := by
        have hsh2 : c.drop pos = (natDecimal k.length ++ 58 :: k) ++
            (encode v ++ (encodeDict ps2 ++ 101 :: suf)) := by
          rw [hshape]
          simp
        have := drop_of_drop_append hsh2
        rw [show pos + (natDecimal k.length ++ 58 :: k).length =
            pos + (natDecimal k.length).length + 1 + k.length from by simp; omega] at this
        exact this
      have hszv : bsize v ≤ f := by
        simp [bsizeDict] at hsz
        omega
      have hszps : bsizeDict ps2 ≤ f := by
        simp [bsizeDict] at hsz
        omega
      have hpv := ihf.1 v (hkval (k, v) (List.mem_cons_self _ _)) hszv c
        (pos + (natDecimal k.length).length + 1 + k.length)
        (encodeDict ps2 ++ 101 :: suf) hdropk
      have hdropv := drop_of_drop_append hdropk
      have hchain2 : List.Chain' (fun a b => byteCmp a b = .lt)
          ((acc ++ [(k, v)]).map Prod.fst ++ ps2.map Prod.fst) := by
        simpa using hchain
      have hpd := ihf.2.2 ps2 (acc ++ [(k, v)])
        (fun p hp => hklen p (List.mem_cons_of_mem _ hp))
        (fun p hp => hkval p (List.mem_cons_of_mem _ hp))
        hchain2 hszps c
        (pos + (natDecimal k.length).length + 1 + k.length + (encode v).length)
        suf hdropv
      rw [parse_dict]
      rw [if_neg (by omega), hget, if_neg (by omega)]
      simp only [hpsr]
      have hord : (match acc.getLast? with
          | none => Except.ok ()
          | some (k0, _) =>
            match byteCmp k k0 with
            | .lt => Except.error BencodeError.dictionaryKeysOutOfOrder
            | .eq => Except.error (BencodeError.duplicateDictionaryKey k)
            | .gt => Except.ok ()) = Except.ok () := by
        cases hacc : acc.getLast? with
        | none => rfl
        | some p0 =>
          obtain ⟨k0, v0⟩ := p0
          have hlast : (acc.map Prod.fst).getLast? = some k0 := by
            rw [getLast?_map, hacc]
            rfl
          have hlt0 : byteCmp k0 k = .lt := by
            have hc := (List.chain'_append.mp hchain).2.2
            have := hc k0 (by rw [hlast]; rfl) k (by simp)
            exact this
          dsimp only
          rw [byteCmp_swap k0 k hlt0]
      simp only [hord, hpv, hpd]
      simp only [Except.ok.injEq, Prod.mk.injEq]
      constructor
      · simp
      · simp [encodeDict]
        omega

/-- The fuel measure is bounded by the encoding length (loops need one
extra unit for the closing `e`). -/
theorem bsize_le_encode_ind : ∀ n : Nat,
    (∀ v, bsize v ≤ n → bsize v ≤ (encode v).length) ∧
    (∀ xs, bsizeList xs ≤ n → bsizeList xs ≤ (encodeList xs).length + 1) ∧
    (∀ ps, bsizeDict ps ≤ n → bsizeDict ps ≤ (encodeDict ps).length + 1) := by
  intro n
  induction n using Nat.strong_induction_on with
  | _ n ih =>
  refine ⟨?_, ?_, ?_⟩
  · intro v hn
    cases v with
    | int i =>
      simp [bsize, encode]
    | str s =>
      have := List.length_pos.mpr (natDecimal_ne_nil s.length)
      simp [bsize, encode]
      omega
    | list xs =>
      simp only [bsize] at hn ⊢
      have hlt : bsizeList xs < n := by
        have := bsizeList_pos xs
        omega
      have hb := (ih (bsizeList xs) hlt).2.1 xs (le_refl _)
      simp [encode]
      omega
    | dict xs =>
      simp only [bsize] at hn ⊢
      have hlt : bsizeDict xs < n := by
        have := bsizeDict_pos xs
        omega
      have hb := (ih (bsizeDict xs) hlt).2.2 xs (le_refl _)
      simp [encode]
      omega
  · intro xs hn
    cases xs with
    | nil => simp [bsizeList, encodeList]
    | cons v vs =>
      simp only [bsizeList] at hn ⊢
      have hv : bsize v < n := by omega
      have hvs : bsizeList vs < n := by omega
      have hbv := (ih (bsize v) hv).1 v (le_refl _)
      have hbvs := (ih (bsizeList vs) hvs).2.1 vs (le_refl _)
      obtain ⟨d, tl, hdt, -⟩ := encode_head v
      have henc1 : 1 ≤ (encode v).length := by
        rw [hdt]
        simp
      simp [encodeList]
      omega
  · intro ps hn
    cases ps with
    | nil => simp [bsizeDict, encodeDict]
    | cons p ps2 =>
      obtain ⟨k, v⟩ := p
      simp only [bsizeDict] at hn ⊢
      have hv : bsize v < n := by omega
      have hps : bsizeDict ps2 < n := by omega
      have hbv := (ih (bsize v) hv).1 v (le_refl _)
      have hbps := (ih (bsizeDict ps2) hps).2.2 ps2 (le_refl _)
      obtain ⟨d, tl, hdt, -⟩ := encode_head v
      have henc1 : 1 ≤ (encode v).length := by
        rw [hdt]
        simp
      simp [encodeDict]
      omega

/-- Decoding the canonical encoding of a valid value returns exactly
that value (`decode(encode(v)) == v`). -/
theorem deserialize_encode (v : BencodeValue) (hv : Valid v) :
    deserialize (encode v) = .ok v := by
  have hb : bsize v ≤ (encode v).length := (bsize_le_encode_ind (bsize v)).1 v (le_refl _)
  have h := (parse_encode_ind ((encode v).length + 1)).1 v hv (by omega)
    (encode v) 0 [] (by simp)
  unfold deserialize
  rw [h]
  simp

/-! ## Claim C2: the re-serialisation law -/

/-- C2, the claim as stated: `encode(decode(b)) == b` fails.  The
string-length literal is parsed with leading zeros allowed
(`parse_integer_value(true)`), so `01:a` decodes successfully to the
byte string `"a"`, which re-encodes canonically as `1:a` — three
bytes, not the original four. -/
theorem reserialization_counterexample :
    deserialize [48, 49, 58, 97] = .ok (.str [97]) ∧
    encode (BencodeValue.str [97]) = [49, 58, 97] ∧
    [49, 58, 97] ≠ [48, 49, 58, 97] := by
  refine ⟨?_, ?_, by decide⟩
  · simp [deserialize, parse_value, parse_string_raw, parse_integer_value, digitRun,
      isDigitB, digitsVal, I64_MAX]
  · simp [encode, natDecimal, natDecimalGo]

/-- C2 (amended).  The re-serialisation law holds on canonical
inputs: decoding the encoding of any valid value returns exactly that
value, and consequently `encode(decode(b)) == b` for every `b` in the
image of the encoder (equivalently, every successfully-decoding `b`
whose string-length literals carry no leading zeros; the decoder's
acceptance of leading-zero lengths such as `01:a` is the only breach
of the law as originally stated). -/
theorem reserialization_canonical :
    (∀ v : BencodeValue, Valid v → deserialize (encode v) = .ok v) ∧
    (∀ (b : List Nat) (v w : BencodeValue), Valid v → b = encode v →
      deserialize b = .ok w → encode w = b) := by
  refine ⟨deserialize_encode, ?_⟩
  intro b v w hv hb hw
  subst hb
  rw [deserialize_encode v hv] at hw
  cases hw
  rfl

/-- Witness for `reserialization_canonical`: the dictionary
`d1:ai3ee` round-trips. -/
theorem reserialization_canonical_witness :
    deserialize (encode (BencodeValue.dict [([97], .int 3)])) =
      .ok (BencodeValue.dict [([97], .int 3)]) :=
  reserialization_canonical.1 (BencodeValue.dict [([97], .int 3)]) (by
    refine Valid.dict ?_ ?_ ?_
    · intro p hp
      simp at hp
      rw [hp]
      norm_num [I64_MAX]
    · intro p hp
      simp at hp
      rw [hp]
      exact Valid.int (by norm_num) (by norm_num)
    · simp)

/-! ## Claim C1: the `private` flag -/

/-- C1.  The claim: `private` maps 0 to false and 1 to true.  The code
of `TorrentFile::extract` computes `private = (v == 0)`, so a metainfo
whose info dictionary maps `private` to 0 extracts with `private =
true`, and one mapping it to 1 extracts with `private = false` — the
exact inversion of the claim.  (The absent-key default `false` and the
`InvalidPrivateValue` rejection of values above 1 do match the claim.) -/
theorem private_flag_inverted :
    (extract (fun _ => true) (fun _ => true) (fun _ => List.replicate 20 0)
        [102] (metainfoWithPrivate 0)).map (fun t => t.private_) = .ok true ∧
    (extract (fun _ => true) (fun _ => true) (fun _ => List.replicate 20 0)
        [102] (metainfoWithPrivate 1)).map (fun t => t.private_) = .ok false ∧
    (extract (fun _ => true) (fun _ => true) (fun _ => List.replicate 20 0)
        [102] (metainfoWithPrivate 2)) = .error (.invalidPrivateValue 2) := by
  refine ⟨?_, ?_, ?_⟩ <;> rfl

/-! ## Claim C3: `all()` after completing every piece -/

/-- C3.  The claim: `Bitfield::new(N, false)` followed by a successful
`mark_piece(i)` for every `i < N` satisfies `all()`.  At `N = 1` the
single mark succeeds and sets the top bit of the only mask byte, but
`new` initialised `last_mask` to `0xFF`, so `all()` compares `0x80`
against `0xFF` and returns `false`: a download that completes every
piece is judged incomplete whenever `N` is not a multiple of 8. -/
theorem all_false_after_every_piece_marked :
    Bitfield.mark_piece (Bitfield.new 1 false) 0 =
      .ok { masks := [128], num := 1, last_mask := 255 } ∧
    Bitfield.all { masks := [128], num := 1, last_mask := 255 } = false := by
  exact ⟨rfl, rfl⟩

/-! ## Claim C4: decoding a Piece message -/

/-- C4.  The claim: a Piece payload of length ≥ 8 decodes with `index`
from bytes 0..4, `begin` from bytes 4..8 and the rest as the block.
The code reads `begin` from the slice `bytes[5..8]` — three bytes —
and `<[u8; 4]>::try_from` on it always fails, so every Piece payload
of length ≥ 8 is rejected with `ByteConversionError`; the all-zero
8-byte payload should decode to `Piece{index: 0, begin: 0, block: []}`
but errors instead. -/
theorem read_piece_always_fails :
    read_piece (List.replicate 8 0) = .error .byteConversionError ∧
    read_piece (List.replicate 3 0) = .error (.unexpectedNumBytes 8 3) := by
  exact ⟨rfl, rfl⟩

/-! ## Claim C5: handshake acceptance -/

/-- C5.  The claim: a 68-byte handshake with the right protocol string
and our info-hash succeeds, reserved bytes ignored and peer id never
compared.  On a canonical such handshake the code fails three times
over: `TorrentHandshake::try_from` reads the peer id from
`bytes[48..60]` (twelve bytes) so the conversion to `[u8; 20]` errors;
the caller treats the successful 68-byte `read_exact` (which returns
68, not less than the buffer length) as `InsufficientDataReceived`;
and the comparison chain does compare the reserved flags and the peer
id against our own. -/
theorem handshake_rejects_valid_handshake :
    torrentHandshake_try_from (goodHandshake (List.replicate 20 7)) =
      .error .byteConversionError ∧
    handshake_receive (List.replicate 20 7) (goodHandshake (List.replicate 20 7)) =
      .error (.insufficientDataReceived 68) ∧
    handshake_check (torrentHandshake_new (List.replicate 20 7))
        { flags := 1 :: List.replicate 7 0, info_hash := List.replicate 20 7,
          peer_id := PEER_ID } =
      .error (.mismatchedFlags (List.replicate 8 0) (1 :: List.replicate 7 0)) := by
  refine ⟨?_, ?_, ?_⟩ <;> rfl

/-! ## Claim C9: masking on construction -/

/-- C9.  The claim: `try_from_vec(v, N)` clears every stored bit at
position ≥ N.  The code computes `extra = num_elements % 8` — the
byte count modulo 8 — instead of `N % 8`.  For `N = 9` this gives
`extra = 2` and `last_mask = 0xC0`, which keeps bit position 9: from
`v = [0x00, 0xFF]` the constructed bitfield stores `[0x00, 0xC0]`,
whose bit at position 9 (byte 1, offset 1, i.e. `testBit 6`) is still
set although 9 ≥ N. -/
theorem try_from_vec_keeps_unused_bit :
    Bitfield.try_from_vec [0, 255] 9 =
      .ok { masks := [0, 192], num := 9, last_mask := 192 } ∧
    (192 : Nat).testBit 6 = true := by
  exact ⟨rfl, by decide⟩

/-! ## Claim C7: compact peer decoding -/

/-- C7.  For every byte string of length `6k` the decoder returns `k`
peers, the `i`-th having IPv4 octets `bytes[6i..6i+4]` and big-endian
port from `bytes[6i+4..6i+6]`; any other length yields
`IllegalPeersLength`; and the spec's 12-byte example decodes to
`[10.0.0.1:6881, 192.168.1.1:1720]`. -/
theorem extract_peers_correct :
    (∀ bytes : List Nat,
      (bytes.length % 6 = 0 →
        ∃ ps, extract_peers (some (.str bytes)) = .ok ps ∧
          ps.length = bytes.length / 6 ∧
          ∀ i < bytes.length / 6, ps.get? i = some
            { a := bytes.getD (6 * i) 0, b := bytes.getD (6 * i + 1) 0,
              c := bytes.getD (6 * i + 2) 0, d := bytes.getD (6 * i + 3) 0,
              port := 256 * bytes.getD (6 * i + 4) 0 + bytes.getD (6 * i + 5) 0 }) ∧
      (bytes.length % 6 ≠ 0 →
        extract_peers (some (.str bytes)) = .error (.illegalPeersLength bytes.length))) ∧
    extract_peers (some (.str [10, 0, 0, 1, 26, 225, 192, 168, 1, 1, 6, 184])) =
      .ok [{ a := 10, b := 0, c := 0, d := 1, port := 6881 },
           { a := 192, b := 168, c := 1, d := 1, port := 1720 }] := by
  refine ⟨fun bytes => ⟨fun h6 => ?_, fun h6 => ?_⟩, rfl⟩
  · refine ⟨(List.range (bytes.length / 6)).map (fun i =>
      { a := bytes.getD (6 * i) 0, b := bytes.getD (6 * i + 1) 0,
        c := bytes.getD (6 * i + 2) 0, d := bytes.getD (6 * i + 3) 0,
        port := 256 * bytes.getD (6 * i + 4) 0 + bytes.getD (6 * i + 5) 0 }), ?_, ?_, ?_⟩
    · simp only [extract_peers, h6]
      simp
    · simp
    · intro i hi
      simp [List.get?_eq_getElem?, List.getElem?_map, List.getElem?_range hi]
  · simp only [extract_peers]
    simp [h6]

/-- Witness for `extract_peers_correct`: the general part applied at
the example input. -/
theorem extract_peers_correct_witness :
    ∃ ps, extract_peers (some (.str [10, 0, 0, 1, 26, 225, 192, 168, 1, 1, 6, 184])) = .ok ps ∧
      ps.length = 2 ∧
      ∀ i < 2, ps.get? i = some
        { a := [10, 0, 0, 1, 26, 225, 192, 168, 1, 1, 6, 184].getD (6 * i) 0,
          b := [10, 0, 0, 1, 26, 225, 192, 168, 1, 1, 6, 184].getD (6 * i + 1) 0,
          c := [10, 0, 0, 1, 26, 225, 192, 168, 1, 1, 6, 184].getD (6 * i + 2) 0,
          d := [10, 0, 0, 1, 26, 225, 192, 168, 1, 1, 6, 184].getD (6 * i + 3) 0,
          port := 256 * [10, 0, 0, 1, 26, 225, 192, 168, 1, 1, 6, 184].getD (6 * i + 4) 0 +
            [10, 0, 0, 1, 26, 225, 192, 168, 1, 1, 6, 184].getD (6 * i + 5) 0 } :=
  (extract_peers_correct.1 [10, 0, 0, 1, 26, 225, 192, 168, 1, 1, 6, 184]).1 (by decide)

/-! ## Claim C8: at-most-once piece completion -/

/-- The bit mask `1 <<< k` tests bit `k`. -/
theorem and_shift_mask_iff (x k : Nat) :
    (x &&& (1 <<< k) = 1 <<< k) ↔ x.testBit k = true := by
  rw [Nat.shiftLeft_eq, one_mul, Nat.and_two_pow]
  cases h : x.testBit k
  · simp
    positivity
  · simp

/-- The mask index of a marked piece is within a well-formed mask
vector. -/
theorem mask_index_lt {bf : Bitfield} {p : Nat} (hwf : BitfieldWF bf)
    (hp : p < bf.num) : p / 8 < bf.masks.length := by
  have h8 : (p + 8) / 8 ≤ (bf.num + 7) / 8 := Nat.div_le_div_right (by omega)
  rw [Nat.add_div_right p (by omega)] at h8
  exact lt_of_lt_of_le (by omega) (le_trans h8 hwf)

/-- `mark_piece` succeeds below the width and returns the bitfield
with the or-mask applied; width, `last_mask` and mask count are
unchanged. -/
theorem mark_piece_ok {bf : Bitfield} {p : Nat} {d2 : Bitfield}
    (h : bf.mark_piece p = .ok d2) :
    p < bf.num ∧
    d2 = Bitfield.mk
      (bf.masks.set (p / 8) (bf.masks.getD (p / 8) 0 ||| (1 <<< (7 - p % 8))))
      bf.num bf.last_mask := by
  unfold Bitfield.mark_piece at h
  by_cases hlt : bf.num ≤ p
  · rw [if_pos hlt] at h
    exact absurd h (by simp)
  · rw [if_neg hlt] at h
    refine ⟨by omega, ?_⟩
    have h2 := Except.ok.inj h
    rw [← h2]

/-- A marked piece reads back as set. -/
theorem has_piece_mark_self {bf : Bitfield} {p : Nat} {d2 : Bitfield}
    (hwf : BitfieldWF bf) (h : bf.mark_piece p = .ok d2) :
    d2.has_piece p = .ok true := by
  obtain ⟨hp, hd2⟩ := mark_piece_ok h
  subst hd2
  have hidx : p / 8 < bf.masks.length := mask_index_lt hwf hp
  have hbit : (bf.masks.getD (p / 8) 0 ||| 1 <<< (7 - p % 8)) &&& 1 <<< (7 - p % 8) =
      1 <<< (7 - p % 8) := by
    rw [and_shift_mask_iff, Nat.testBit_lor, Nat.shiftLeft_eq, one_mul,
      Nat.testBit_two_pow_self, Bool.or_true]
  simp only [Bitfield.has_piece]
  rw [if_neg (by omega)]
  rw [List.getD_eq_getD_get?, List.get?_eq_getElem?, List.getElem?_set_self hidx,
    Option.getD_some, hbit]
  simp

/-- Marking one piece never clears another: every piece reading as set
still reads as set afterwards. -/
theorem has_piece_mark_mono {bf : Bitfield} {p q : Nat} {d2 : Bitfield}
    (hwf : BitfieldWF bf) (h : bf.mark_piece p = .ok d2)
    (hq : bf.has_piece q = .ok true) : d2.has_piece q = .ok true := by
  obtain ⟨hp, hd2⟩ := mark_piece_ok h
  subst hd2
  simp only [Bitfield.has_piece] at hq ⊢
  by_cases hqlt : bf.num ≤ q
  · rw [if_pos hqlt] at hq
    exact absurd hq (by simp)
  · rw [if_neg hqlt] at hq ⊢
    simp only [Except.ok.injEq, decide_eq_true_eq] at hq ⊢
    by_cases hsame : q / 8 = p / 8
    · rw [List.getD_eq_getD_get?, List.get?_eq_getElem?, hsame,
        List.getElem?_set_self (mask_index_lt hwf hp), Option.getD_some]
      rw [and_shift_mask_iff] at hq ⊢
      rw [← hsame, Nat.testBit_lor, hq, Bool.true_or]
    · rw [List.getD_eq_getD_get?, List.get?_eq_getElem?,
        List.getElem?_set_ne (fun hc => hsame hc.symm), ← List.get?_eq_getElem?,
        ← List.getD_eq_getD_get?]
      exact hq

/-- Unfolding `commitsFor` over the head label of a run. -/
theorem commitsFor_cons (p : Nat) (l : DlLabel) (ls : List DlLabel) :
    commitsFor p (l :: ls) = commitsFor p ls +
      (if (match l with | .commit _ q => q == p | _ => false) = true then 1 else 0) :=
  List.countP_cons _ _ _

/-- Steps cannot clear a done bit: the mark in a `commit` step only
sets, and no other step touches `done` (`collide` aborts the
process). -/
theorem step_done_monotone {s : DlState} {l : DlLabel} {s2 : DlState}
    (hstep : DlStep s l s2) (hwf : BitfieldWF s.done) :
    ∀ q, s.done.has_piece q = .ok true → s2.done.has_piece q = .ok true := by
  intro q hq
  cases hstep with
  | select hab hw hfree htodo hskip => exact hq
  | commit hab hw hhold hunset hmark => exact has_piece_mark_mono hwf hmark hq
  | collide hab hw hhold hset => exact hq
  | requeue hab hw hhold => exact hq

/-- Steps preserve bitfield well-formedness of `done`. -/
theorem step_done_wf {s : DlState} {l : DlLabel} {s2 : DlState}
    (hstep : DlStep s l s2) (hwf : BitfieldWF s.done) : BitfieldWF s2.done := by
  cases hstep with
  | select hab hw hfree htodo hskip => exact hwf
  | commit hab hw hhold hunset hmark =>
    obtain ⟨hp, hd2⟩ := mark_piece_ok hmark
    subst hd2
    simpa [BitfieldWF] using hwf
  | collide hab hw hhold hset => exact hwf
  | requeue hab hw hhold => exact hwf

/-- Once a piece reads as done, no later step of a run commits it
again. -/
theorem run_no_commit_after_done (p : Nat) :
    ∀ (run : List (DlLabel × DlState)) (s : DlState), IsRun s run →
      BitfieldWF s.done → s.done.has_piece p = .ok true →
      commitsFor p (run.map Prod.fst) = 0 := by
  intro run
  induction run with
  | nil => intro s _ _ _; rfl
  | cons head rest ih =>
    obtain ⟨l, s2⟩ := head
    intro s hrun hwf hdone
    obtain ⟨hstep, hrest⟩ := hrun
    have hwf2 : BitfieldWF s2.done := step_done_wf hstep hwf
    have hdone2 : s2.done.has_piece p = .ok true := step_done_monotone hstep hwf p hdone
    have hrest0 : commitsFor p (rest.map Prod.fst) = 0 := ih s2 hrest hwf2 hdone2
    rw [List.map_cons, commitsFor_cons]
    cases hstep with
    | select hab hw hfree htodo hskip => simpa using hrest0
    | @commit w q u d2 hab hw hhold hunset hmark =>
      have hqp : (q == p) = false := by
        refine beq_eq_false_iff_ne.mpr (fun hqp => ?_)
        rw [hqp, hdone] at hunset
        exact Bool.noConfusion (Except.ok.inj hunset)
      simpa [hqp] using hrest0
    | collide hab hw hhold hset => simpa using hrest0
    | requeue hab hw hhold => simpa using hrest0

/-- In any run from a well-formed state, each piece is committed at
most once. -/
theorem run_commits_at_most_once (p : Nat) :
    ∀ (run : List (DlLabel × DlState)) (s : DlState), IsRun s run →
      BitfieldWF s.done → commitsFor p (run.map Prod.fst) ≤ 1 := by
  intro run
  induction run with
  | nil => intro s _ _; simp [commitsFor]
  | cons head rest ih =>
    obtain ⟨l, s2⟩ := head
    intro s hrun hwf
    obtain ⟨hstep, hrest⟩ := hrun
    have hwf2 : BitfieldWF s2.done := step_done_wf hstep hwf
    rw [List.map_cons, commitsFor_cons]
    cases hstep with
    | select hab hw hfree htodo hskip => simpa using ih _ hrest hwf2
    | @commit w q u d2 hab hw hhold hunset hmark =>
      by_cases hqp : q = p
      · subst hqp
        have hdone2 : d2.has_piece q = .ok true := has_piece_mark_self hwf hmark
        have h0 : commitsFor q (rest.map Prod.fst) = 0 :=
          run_no_commit_after_done q rest _ hrest hwf2 hdone2
        simp [h0]
      · simpa [beq_eq_false_iff_ne.mpr hqp] using ih _ hrest hwf2
    | collide hab hw hhold hset => simpa using ih _ hrest hwf2
    | requeue hab hw hhold => simpa using ih _ hrest hwf2

/-- C8.  At-most-once piece completion: in every interleaved run of
any number of workers from the shared initial state, each piece index
is committed (its `done` bit set) at most once; and no step of the
system ever clears a `done` bit.  The selection step removes the piece
from `todo` in the same atomic critical section by construction of
`DlStep.select`, mirroring the lock scope in
`Downloader::try_download_piece`. -/
theorem at_most_once_completion :
    (∀ (n k : Nat) (run : List (DlLabel × DlState)),
      IsRun (initState n k) run →
      ∀ p, commitsFor p (run.map Prod.fst) ≤ 1) ∧
    (∀ (s : DlState) (l : DlLabel) (s2 : DlState), DlStep s l s2 →
      BitfieldWF s.done →
      ∀ q, s.done.has_piece q = .ok true → s2.done.has_piece q = .ok true) := by
  constructor
  · intro n k run hrun p
    have hwf : BitfieldWF (initState n k).done := by
      simp [initState, Bitfield.new, BitfieldWF]
    exact run_commits_at_most_once p run _ hrun hwf
  · intro s l s2 hstep hwf q hq
    exact step_done_monotone hstep hwf q hq

/-- Witness for `at_most_once_completion`: the two-step run in which
the single worker selects and commits piece 0, and a concrete
`collide` step that leaves the set bit set. -/
theorem at_most_once_completion_witness :
    commitsFor 0 (runWitness.map Prod.fst) ≤ 1 ∧
    Bitfield.has_piece
      (DlState.done { done := { masks := [128], num := 1, last_mask := 255 },
                      todo := [], workers := [{ skip := [], holding := some 0 }],
                      aborted := true }) 0 = .ok true := by
  constructor
  · refine at_most_once_completion.1 1 1 runWitness ?_ 0
    refine ⟨?_, ?_, trivial⟩
    · exact @DlStep.select (initState 1 1) 0 0 { skip := [], holding := none }
        rfl rfl rfl (by decide) (by decide)
    · exact @DlStep.commit
        { done := Bitfield.new 1 false, todo := [],
          workers := [{ skip := [], holding := some 0 }], aborted := false }
        0 0 { skip := [], holding := some 0 }
        { masks := [128], num := 1, last_mask := 255 }
        rfl rfl rfl rfl rfl
  · exact at_most_once_completion.2
      { done := { masks := [128], num := 1, last_mask := 255 }, todo := [],
        workers := [{ skip := [], holding := some 0 }], aborted := false }
      (.collide 0 0) _
      (@DlStep.collide
        { done := { masks := [128], num := 1, last_mask := 255 }, todo := [],
          workers := [{ skip := [], holding := some 0 }], aborted := false }
        0 0 { skip := [], holding := some 0 } rfl rfl rfl rfl)
      (Nat.le_refl 1) 0 rfl

/-! ## Claim C10: an empty `pieces` string never yields a torrent -/

/-- With zero pieces the wrapped length check always trips: for a
zero total the wrapped product bound holds trivially, and a positive
total exceeds the zero upper bound. -/
theorem length_check_zero_pieces (nb total : Nat) :
    total ≤ nb * ((0 + U64 - 1) % U64) % U64 ∨ nb * 0 % U64 < total := by
  rcases Nat.eq_zero_or_pos total with h | h
  · left
    rw [h]
    exact Nat.zero_le _
  · right
    simpa using h

/-- C10.  A metainfo whose info dictionary maps `pieces` to the empty
byte string never extracts to a `TorrentFile`: the divisible-by-20
check accepts length 0 and produces zero piece hashes, after which
the final invariant check computes `num_bytes_per_piece * (np - 1)`
with `np = 0` in `u64` arithmetic — `np - 1` wraps to `2^64 - 1`
(release semantics; a debug build panics at the same subtraction) —
and the `LengthMismatch` guard then fires for every possible
`total_num_bytes` (when the total is 0 the wrapped product is
trivially ≥ 0; otherwise the total exceeds `upper_bound = 0`), so
extraction ends in an error on every path. -/
theorem empty_pieces_never_extracts :
    ∀ (utf8ok urlOk : List Nat → Bool) (sha1 : List Nat → List Nat)
      (filename : List Nat) (items info_items : List (List Nat × BencodeValue)),
      dictGet items INFO = some (.dict info_items) →
      dictGet info_items PIECES = some (.str []) →
      ∃ e, extract utf8ok urlOk sha1 filename items = .error e := by
  intro utf8ok urlOk sha1 filename items info_items hinfo hpieces
  unfold extract
  dsimp only
  split
  · exact ⟨_, rfl⟩
  split
  · exact ⟨_, rfl⟩
  split
  · exact ⟨_, rfl⟩
  split
  · exact ⟨_, rfl⟩
  split
  · exact ⟨_, rfl⟩
  split
  · exact ⟨_, rfl⟩
  split
  · exact ⟨_, rfl⟩
  rw [hinfo]
  unfold extract_inner
  dsimp only
  split
  · exact ⟨_, rfl⟩
  split
  · exact ⟨_, rfl⟩
  split
  · exact ⟨_, rfl⟩
  rw [hpieces]
  rw [show extract_pieces (some (BencodeValue.str [])) = .ok [] from rfl]
  dsimp only
  split
  · exact ⟨_, rfl⟩
  split
  · exact ⟨_, rfl⟩
  simp only [List.length_nil]
  rw [if_pos (length_check_zero_pieces _ _)]
  exact ⟨_, rfl⟩

/-- Witness for `empty_pieces_never_extracts`: a concrete single-file
metainfo with an empty `pieces` string fails to extract. -/
theorem empty_pieces_never_extracts_witness :
    ∃ e, extract (fun _ => true) (fun _ => true) (fun _ => List.replicate 20 0)
      [102] metainfoEmptyPieces = .error e :=
  empty_pieces_never_extracts (fun _ => true) (fun _ => true)
    (fun _ => List.replicate 20 0) [102] metainfoEmptyPieces infoEmptyPieces
    rfl rfl

end Torrentium
